import Mathlib

/-!
# Compile cache (`eval/llvm/compile_cache.cpp`)

A shallow embedding of `vespalib::eval::CompileCache`: the key -> Value table `_cached`,
the executor stack `_executor_stack` with its tag counter `_executor_tag`, and the
operations `compile`, `release`, `attach_executor`, `detach_executor`, `num_cached`,
`num_bound`, `count_refs`, `count_pending` and `CompileTask::run`.

Every member function of the source takes the single global mutex `_lock` around its
bookkeeping, so every guarded block is one atomic transition of the model.  Threads are
modelled by interleaving these transitions (`Op`, `step`, `runOps`).  The order of lock
acquisition, executor submission and backend invocation inside one call is recorded in
an event log (`World.log`).

The key derivation `gen_key` (`key_gen.h`) is outside the sources and is a parameter
of the model; nothing is assumed about it.

Counters (`size_t num_refs`, `uint64_t _executor_tag`) are modelled by `Nat`: a unit of
`num_refs` is a live heap-allocated Token and a unit of `_executor_tag` is one completed
`attach_executor` call, so neither reaches `2^64`.
-/

set_option linter.unusedSectionVars false

namespace CompileCache

/-! ## Data model -/

/-- Result of `Executor::execute(Task::UP)`.
Modelled from the spec: the declaration of `Executor` is not part of the sources; the
submit operation either takes the task over (`consumed`, the returned pointer is null,
and the executor runs the task asynchronously, after the submit has returned) or hands
the same task back (`declined`). -/
inductive Outcome where
  | consumed
  | declined
  deriving DecidableEq, Repr

/-- The artifact `CompiledFunction(function, pass_params)`.  The backend is a black box
to the cache, so the artifact is represented by the arguments it was built from; every
call of the backend builds a new object, and `serial`, the number of backend calls made
before, tells the objects of two calls apart. -/
structure CompiledFunction (F P : Type) where
  function : F
  pass_params : P
  serial : Nat
  deriving DecidableEq, Repr

/-- The per-key record `CompileCache::Value`: `num_refs`, the owning pointer
`compiled_function` and its published raw copy `cf` (the condition variable `cond`
only serves blocking in `wait_for_result` and carries no data). -/
structure Value (F P : Type) where
  num_refs : Nat
  cf : Option (CompiledFunction F P)
  compiled_function : Option (CompiledFunction F P)
  deriving DecidableEq, Repr

/-- Modelled from the spec: the constructor `Value(ctor_tag)` lives in the header, which
is not part of the sources.  A fresh Entry is Pending (no artifact) and its count is 1,
so that the single `++num_refs` of the miss path of `compile` accounts for the two
Tokens minted there. -/
def Value.ctor {F P : Type} : Value F P :=
  { num_refs := 1, cf := none, compiled_function := none }

/-- The unit of work `CompileCache::CompileTask`: function, pass parameters and an owned
Token; a Token is a map iterator `_entry`, represented by the key of its Entry. -/
structure CompileTask (F P K : Type) where
  function : F
  pass_params : P
  token : K
  deriving DecidableEq, Repr

/-- The static state of `CompileCache`: `_cached`, `_executor_tag`, `_executor_stack`
(the back of the vector is the last element of the list). -/
structure Registry (F P K E : Type) where
  cached : List (K × Value F P)
  executor_tag : Nat
  executor_stack : List (Nat × E)

/-- Events of one execution, in program order. -/
inductive Event (K : Type) where
  | lock
  | unlock
  | task_created (key : K)
  | execute (tag : Nat) (key : K)
  | backend (key : K)
  | publish (key : K)
  deriving DecidableEq, Repr

/-- The registry together with its environment: the Tokens held by callers, the live
Compile Tasks (held by an executor, or by a `compile` call that is about to run one
itself) with a flag telling whether `run` has completed, and the event log. -/
structure World (F P K E : Type) where
  reg : Registry F P K E
  tokens : List K
  tasks : List (CompileTask F P K × Bool)
  log : List (Event K)

variable {F P K E V : Type} [DecidableEq K]

/-! ## The table `_cached` -/

/-- Lookup `_cached.find(key)`; `none` stands for `_cached.end()`. -/
def find : List (K × V) → K → Option V
  | [], _ => none
  | (k, v) :: m, key => if k = key then some v else find m key

/-- Insertion `_cached.emplace(key, value)`: inserts only when the key is absent. -/
def emplace (m : List (K × V)) (key : K) (v : V) : List (K × V) :=
  match find m key with
  | none => m ++ [(key, v)]
  | some _ => m

/-- Removal `_cached.erase(entry)` of the Entry an iterator points to. -/
def erase : List (K × V) → K → List (K × V)
  | [], _ => []
  | (k, v) :: m, key => if k = key then m else (k, v) :: erase m key

/-- Write through an iterator: `entry->second` is replaced by `f entry->second`. -/
def update : List (K × V) → K → (V → V) → List (K × V)
  | [], _, _ => []
  | (k, v) :: m, key, f => if k = key then (k, f v) :: m else (k, v) :: update m key f

/-! ## Operations of the registry -/

/-- The write `++num_refs`. -/
def incRef {F P : Type} (x : Value F P) : Value F P :=
  { x with num_refs := x.num_refs + 1 }

/-- The write `--num_refs`. -/
def decRef {F P : Type} (x : Value F P) : Value F P :=
  { x with num_refs := x.num_refs - 1 }

/-- The writes of lines 124-125: the artifact `result` is stored and published. -/
def setResult {F P : Type} (result : CompiledFunction F P) (x : Value F P) : Value F P :=
  { x with compiled_function := some result, cf := some result }

/-- The empty registry: static initialisers of lines 10-13. -/
def Registry.init : Registry F P K E :=
  { cached := [], executor_tag := 0, executor_stack := [] }

/-- Function `CompileCache::release` (lines 23-30): `--num_refs`, erase at zero.
The result is `none` when the iterator does not denote an Entry of the table or the
count is already zero; a Token owns a reference, so neither happens for a live Token. -/
def release (r : Registry F P K E) (entry : K) : Option (Registry F P K E) :=
  match find r.cached entry with
  | none => none
  | some v =>
    if v.num_refs = 0 then none
    else if v.num_refs - 1 = 0 then some { r with cached := erase r.cached entry }
    else some { r with cached :=
      (update r.cached entry decRef) }

/-- Function `CompileCache::attach_executor` (lines 32-38). -/
def attach_executor (r : Registry F P K E) (executor : E) : Registry F P K E × Nat :=
  ({ r with executor_tag := r.executor_tag + 1,
            executor_stack := r.executor_stack ++ [(r.executor_tag + 1, executor)] },
   r.executor_tag + 1)

/-- Function `CompileCache::detach_executor` (lines 40-48): erase-remove of every
binding whose tag equals the argument. -/
def detach_executor (r : Registry F P K E) (tag : Nat) : Registry F P K E :=
  { r with executor_stack := r.executor_stack.filter (fun a => !(decide (a.1 = tag))) }

/-- Function `CompileCache::num_cached` (lines 80-85). -/
def num_cached (r : Registry F P K E) : Nat := r.cached.length

/-- Function `CompileCache::num_bound` (lines 87-92). -/
def num_bound (r : Registry F P K E) : Nat := r.executor_stack.length

/-- Function `CompileCache::count_refs` (lines 94-103). -/
def count_refs (r : Registry F P K E) : Nat :=
  r.cached.foldl (fun refs entry => refs + entry.2.num_refs) 0

/-- Function `CompileCache::count_pending` (lines 105-116). -/
def count_pending (r : Registry F P K E) : Nat :=
  r.cached.foldl
    (fun pending entry => if entry.2.compiled_function.isNone then pending + 1 else pending) 0

/-- Function `CompileCache::CompileTask::run` (lines 118-127): the artifact is built
from the function and the pass parameters of the task (line 122, `calls` backend calls
were made before) and then, under the lock, stored into the Entry of the task's Token
and published through `cf`.  The store is unconditional: the function does not test
whether the Entry already holds an artifact. -/
def CompileTask.run (r : Registry F P K E) (t : CompileTask F P K) (calls : Nat) :
    Option (Registry F P K E) :=
  match find r.cached t.token with
  | none => none
  | some _ =>
    some { r with cached :=
      (update r.cached t.token (setResult ⟨t.function, t.pass_params, calls⟩)) }

/-- What the guarded block of `compile` (lines 56-73) leaves behind. -/
structure Locked (F P K E : Type) where
  reg : Registry F P K E
  token : K
  created : Option (CompileTask F P K)
  submitted : Option (Nat × E)
  task : Option (CompileTask F P K)

/-- The guarded block of `CompileCache::compile` (lines 56-73).  `token` is the Token
for the caller, `created` the Compile Task built on a miss, `submitted` the binding
whose `execute` was called, and `task` the local variable `task` when the block is
left (null after a hit and after a submit that consumed the task). -/
def compile_locked (gen_key : F → P → K) (r : Registry F P K E) (function : F)
    (pass_params : P) (execute : E → Outcome) : Locked F P K E :=
  let key := gen_key function pass_params
  match find r.cached key with
  | some _ =>
    { reg := { r with cached :=
        (update r.cached key incRef) },
      token := key, created := none, submitted := none, task := none }
  | none =>
    let reg : Registry F P K E :=
      { r with cached :=
        (update (emplace r.cached key Value.ctor) key incRef) }
    let task : CompileTask F P K := ⟨function, pass_params, key⟩
    match r.executor_stack.getLast? with
    | none =>
      { reg := reg, token := key, created := some task, submitted := none,
        task := some task }
    | some top =>
      match execute top.2 with
      | Outcome.consumed =>
        { reg := reg, token := key, created := some task, submitted := some top,
          task := none }
      | Outcome.declined =>
        { reg := reg, token := key, created := some task, submitted := some top,
          task := some task }

/-! ## Transitions of the world -/

/-- The world before any call. -/
def World.init : World F P K E :=
  { reg := Registry.init, tokens := [], tasks := [], log := [] }

/-- Events of the guarded block of `compile` up to and including the call of `execute`
at line 70, in the order of lines 57-70. -/
def submitEvents (l : Locked F P K E) : List (Event K) :=
  [Event.lock]
    ++ (match l.created with
        | none => []
        | some t => [Event.task_created t.token])
    ++ (match l.submitted with
        | none => []
        | some top => [Event.execute top.1 l.token])

/-- Events of the guarded block of `compile`, in the order of lines 57-73: the lock is
released when the block is left, after `execute` has returned. -/
def lockedEvents (l : Locked F P K E) : List (Event K) :=
  submitEvents l ++ [Event.unlock]

/-- Events of `CompileTask::run` for the Entry `key`, in the order of lines 122-127: the
backend call, then the acquisition of the lock, the store, and the release. -/
def runEvents (key : K) : List (Event K) :=
  [Event.backend key, Event.lock, Event.publish key, Event.unlock]

/-- The number of backend calls recorded in a log. -/
def backendCalls (log : List (Event K)) : Nat :=
  log.countP (fun e =>
    match e with
    | Event.backend _ => true
    | _ => false)

/-- The guarded block of `compile` as a transition: the caller receives the Token, a
created task becomes live.  The result carries the Token and the local `task`. -/
def compile_section (gen_key : F → P → K) (w : World F P K E) (function : F)
    (pass_params : P) (execute : E → Outcome) :
    World F P K E × K × Option (CompileTask F P K) :=
  let l := compile_locked gen_key w.reg function pass_params execute
  ({ reg := l.reg,
     tokens := w.tokens ++ [l.token],
     tasks := w.tasks ++ (match l.created with
                          | none => []
                          | some t => [(t, false)]),
     log := w.log ++ lockedEvents l },
   l.token, l.task)

/-- A thread (an executor worker, or `compile` at line 75) runs the live task number
`i`: the backend is called (line 122), then the artifact is stored under the lock
(lines 123-126).  Nothing in `CompileTask::run` prevents a second run of the same
task; the flag of the task only records that a run has completed. -/
def run_task (w : World F P K E) (i : Nat) : Option (World F P K E) :=
  match w.tasks[i]? with
  | none => none
  | some (t, _) =>
    match CompileTask.run w.reg t (backendCalls w.log) with
    | none => none
    | some r =>
      some { reg := r, tokens := w.tokens, tasks := w.tasks.set i (t, true),
             log := w.log ++ runEvents t.token }

/-- The live task number `i` is destroyed; its owned Token is released.
Modelled from the spec: the destructor of Token is in the header, which is not part of
the sources; releasing a Token calls `release` on its Entry. -/
def destroy_task (w : World F P K E) (i : Nat) : Option (World F P K E) :=
  match w.tasks[i]? with
  | none => none
  | some (t, _) =>
    match release w.reg t.token with
    | none => none
    | some r =>
      some { reg := r, tokens := w.tokens, tasks := w.tasks.eraseIdx i,
             log := w.log ++ [Event.lock, Event.unlock] }

/-- A caller drops the Token number `i` it holds.
Modelled from the spec: the destructor of Token is in the header, which is not part of
the sources; releasing a Token calls `release` on its Entry. -/
def release_token (w : World F P K E) (i : Nat) : Option (World F P K E) :=
  match w.tokens[i]? with
  | none => none
  | some k =>
    match release w.reg k with
    | none => none
    | some r =>
      some { reg := r, tokens := w.tokens.eraseIdx i, tasks := w.tasks,
             log := w.log ++ [Event.lock, Event.unlock] }

/-- Call of `attach_executor` as a transition; the result carries the returned tag. -/
def attach (w : World F P K E) (executor : E) : World F P K E × Nat :=
  ({ w with reg := (attach_executor w.reg executor).1,
            log := w.log ++ [Event.lock, Event.unlock] },
   (attach_executor w.reg executor).2)

/-- Call of `detach_executor` as a transition. -/
def detach (w : World F P K E) (tag : Nat) : World F P K E :=
  { w with reg := detach_executor w.reg tag,
           log := w.log ++ [Event.lock, Event.unlock] }

/-- Function `CompileCache::compile` (lines 50-78) executed without interference: the
guarded block, then, when the local `task` is not null, its run on a joined thread
(lines 74-76), and on return the destruction of the local `task`. -/
def compile (gen_key : F → P → K) (w : World F P K E) (function : F)
    (pass_params : P) (execute : E → Outcome) : Option (World F P K E × K) :=
  match compile_section gen_key w function pass_params execute with
  | (w1, token, none) => some (w1, token)
  | (w1, token, some _) =>
    match run_task w1 w.tasks.length with
    | none => none
    | some w2 =>
      match destroy_task w2 w.tasks.length with
      | none => none
      | some w3 => some (w3, token)

/-- The atomic transitions: a whole `compile` call, the guarded block of `compile`
alone (its continuation is then a `run` and a `destroy` of the task it kept), the
release of a caller Token, the run and the destruction of a live task, and the two
executor stack operations. -/
inductive Op (F P E : Type) where
  | compile (function : F) (pass_params : P) (execute : E → Outcome)
  | compile_section (function : F) (pass_params : P) (execute : E → Outcome)
  | release (i : Nat)
  | run (i : Nat)
  | destroy (i : Nat)
  | attach (executor : E)
  | detach (tag : Nat)

/-- One transition; `none` when the operation is not enabled. -/
def step (gen_key : F → P → K) (w : World F P K E) : Op F P E → Option (World F P K E)
  | Op.compile f p ex => (compile gen_key w f p ex).map Prod.fst
  | Op.compile_section f p ex => some (compile_section gen_key w f p ex).1
  | Op.release i => release_token w i
  | Op.run i => run_task w i
  | Op.destroy i => destroy_task w i
  | Op.attach e => some (attach w e).1
  | Op.detach tag => some (detach w tag)

/-- A sequence of transitions. -/
def runOps (gen_key : F → P → K) : World F P K E → List (Op F P E) → Option (World F P K E)
  | w, [] => some w
  | w, op :: ops =>
    match step gen_key w op with
    | none => none
    | some w1 => runOps gen_key w1 ops

/-- Effect of one event on the lock, as seen by the calling thread. -/
def lockStep (held : Bool) : Event K → Bool
  | Event.lock => true
  | Event.unlock => false
  | _ => held

/-- Whether the calling thread holds the lock after the events of a log. -/
def lockHeld (log : List (Event K)) : Bool :=
  log.foldl lockStep false

/-! ## Predicates used to state the properties -/

/-- The count stored for a key; zero when the key is not in the table. -/
def refsAt {F P : Type} (m : List (K × Value F P)) (k : K) : Nat :=
  match find m k with
  | none => 0
  | some v => v.num_refs

/-- The Entries held by the live Compile Tasks. -/
def taskKeys (w : World F P K E) : List K :=
  w.tasks.map (fun t => t.1.token)

/-- Consistency of the table with the live Tokens: keys are unique, the count of every
key is the number of Tokens (of callers and of tasks) on it, every Entry of the table
has a positive count, a key carries at most one live task, the Entry of a task that has
not run yet is Pending, and the counts sum up to the number of live Tokens. -/
structure Inv (w : World F P K E) : Prop where
  nodup : (w.reg.cached.map Prod.fst).Nodup
  refs : ∀ k, refsAt w.reg.cached k = w.tokens.count k + (taskKeys w).count k
  pos : ∀ k v, find w.reg.cached k = some v → 1 ≤ v.num_refs
  taskNodup : (taskKeys w).Nodup
  pending : ∀ t, (t, false) ∈ w.tasks →
    ∃ v, find w.reg.cached t.token = some v ∧ v.compiled_function = none
  sum : count_refs w.reg = w.tokens.length + w.tasks.length

/-- The sum computed by `count_refs`, on the table. -/
def sumRefs {F P : Type} (m : List (K × Value F P)) : Nat :=
  (m.map (fun e => e.2.num_refs)).sum

/-- The number computed by `count_pending`, on the table. -/
def numPending {F P : Type} (m : List (K × Value F P)) : Nat :=
  m.countP (fun e => e.2.compiled_function.isNone)

/-- All worlds visited by a sequence of transitions, the first one included; the
sequence stops at an operation that is not enabled. -/
def trace (gen_key : F → P → K) : World F P K E → List (Op F P E) → List (World F P K E)
  | w, [] => [w]
  | w, op :: ops =>
    w :: (match step gen_key w op with
          | none => []
          | some w1 => trace gen_key w1 ops)

/-- Whether some operation of the sequence is `detach_executor(tag)`. -/
def detachedBy (tag : Nat) (ops : List (Op F P E)) : Bool :=
  ops.any (fun op =>
    match op with
    | Op.detach t => decide (t = tag)
    | _ => false)

/-- The bindings named by the wording "attached bindings whose tag has not been
detached", read off a sequence of operations alone: the attach calls, numbered in the
order of the calls after `n` earlier ones, whose number is not detached later on. -/
def attachedNotDetached : Nat → List (Op F P E) → List (Nat × E)
  | _, [] => []
  | n, Op.attach e :: ops =>
    if detachedBy (n + 1) ops then attachedNotDetached (n + 1) ops
    else (n + 1, e) :: attachedNotDetached (n + 1) ops
  | n, _ :: ops => attachedNotDetached n ops

/-- What the calling thread may do in a given state of the lock: acquire it only when
it does not hold it, and release it, create a task, submit it and publish an artifact
only while holding it; the backend is called only while not holding it. -/
def eventAllowed (held : Bool) : Event K → Bool
  | Event.lock => !held
  | Event.unlock => held
  | Event.task_created _ => held
  | Event.execute _ _ => held
  | Event.publish _ => held
  | Event.backend _ => !held

/-- Whether every event of a log is allowed where it stands, from a state of the lock. -/
def scanOk : Bool → List (Event K) → Bool
  | _, [] => true
  | held, e :: l => eventAllowed held e && scanOk (lockStep held e) l

/-! ## A concrete instance for worked examples -/

/-- A key derivation on numbers, for worked examples. -/
def exampleKey (f p : Nat) : Nat := 10 * f + p

/-- An executor behaviour that takes every task over. -/
def consuming : Nat → Outcome := fun _ => Outcome.consumed

/-- An executor behaviour that hands every task back. -/
def declining : Nat → Outcome := fun _ => Outcome.declined

/-- The world after `attach_executor(7)`, an asynchronous `compile(1, 2)` and a second
`compile(1, 2)`: one Pending Entry, two caller Tokens, one queued task. -/
def exampleShared : World Nat Nat Nat Nat :=
  { reg := { cached := [(12, ⟨3, none, none⟩)], executor_tag := 1,
             executor_stack := [(1, 7)] },
    tokens := [12, 12],
    tasks := [(⟨1, 2, 12⟩, false)],
    log := [Event.lock, Event.unlock, Event.lock, Event.task_created 12,
            Event.execute 1 12, Event.unlock, Event.lock, Event.unlock] }

/-- The world after a synchronous `compile(1, 2)` on the empty registry: one Ready
Entry held by the Token of the caller. -/
def exampleReady : World Nat Nat Nat Nat :=
  { reg := { cached := [(12, ⟨1, some ⟨1, 2, 0⟩, some ⟨1, 2, 0⟩⟩)], executor_tag := 0,
             executor_stack := [] },
    tokens := [12],
    tasks := [],
    log := [Event.lock, Event.task_created 12, Event.unlock, Event.backend 12,
            Event.lock, Event.publish 12, Event.unlock, Event.lock, Event.unlock] }

/-- The world after `attach_executor(7)`, an asynchronous `compile(1, 2)` and the
release of the Token of the caller: the task is still queued. -/
def exampleDropped : World Nat Nat Nat Nat :=
  { reg := { cached := [(12, ⟨1, none, none⟩)], executor_tag := 1,
             executor_stack := [(1, 7)] },
    tokens := [],
    tasks := [(⟨1, 2, 12⟩, false)],
    log := [Event.lock, Event.unlock, Event.lock, Event.task_created 12,
            Event.execute 1 12, Event.unlock, Event.lock, Event.unlock] }

theorem find_update (m : List (K × V)) (k k1 : K) (f : V → V) :
    find (update m k f) k1 = if k = k1 then (find m k1).map f else find m k1 := by
  induction m with
  | nil => simp [update, find]
  | cons e m ih =>
    obtain ⟨a, v⟩ := e
    by_cases h1 : a = k
    · by_cases h2 : k = k1
      · subst h1; subst h2; simp [update, find]
      · subst h1; simp [update, find, h2]
    · by_cases h2 : k = k1
      · subst h2; simp [update, find, h1, ih]
      · by_cases h3 : a = k1
        · subst h3; simp [update, find, h1, h2]
        · simp [update, find, h1, h2, h3, ih]

theorem keys_update (m : List (K × V)) (k : K) (f : V → V) :
    (update m k f).map Prod.fst = m.map Prod.fst := by
  induction m with
  | nil => rfl
  | cons e m ih =>
    obtain ⟨a, v⟩ := e
    by_cases h1 : a = k <;> simp [update, h1, ih]

theorem length_update (m : List (K × V)) (k : K) (f : V → V) :
    (update m k f).length = m.length := by
  have h := congrArg List.length (keys_update m k f)
  simpa using h

theorem find_eq_none_iff (m : List (K × V)) (k : K) :
    find m k = none ↔ k ∉ m.map Prod.fst := by
  induction m with
  | nil => simp [find]
  | cons e m ih =>
    obtain ⟨a, v⟩ := e
    by_cases h1 : a = k
    · simp [find, h1]
    · simp only [find, h1, if_false, ih, List.map_cons, List.mem_cons]
      constructor
      · intro h hk
        rcases hk with hk | hk
        · exact h1 hk.symm
        · exact h hk
      · intro h hk
        exact h (Or.inr hk)

theorem mem_of_find (m : List (K × V)) (k : K) (v : V) (h : find m k = some v) :
    (k, v) ∈ m := by
  induction m with
  | nil => simp [find] at h
  | cons e m ih =>
    obtain ⟨a, x⟩ := e
    by_cases h1 : a = k
    · simp [find, h1] at h
      simp [h1, h]
    · simp [find, h1] at h
      exact List.mem_cons_of_mem _ (ih h)

theorem find_of_mem (m : List (K × V)) (k : K) (v : V)
    (hn : (m.map Prod.fst).Nodup) (h : (k, v) ∈ m) : find m k = some v := by
  induction m with
  | nil => simp at h
  | cons e m ih =>
    obtain ⟨a, x⟩ := e
    simp only [List.map_cons, List.nodup_cons] at hn
    rcases List.mem_cons.mp h with h | h
    · simp only [Prod.mk.injEq] at h
      simp [find, h.1, h.2]
    · have hk : k ∈ m.map Prod.fst := List.mem_map.mpr ⟨(k, v), h, rfl⟩
      have h1 : a ≠ k := fun hak => hn.1 (hak ▸ hk)
      simp [find, h1, ih hn.2 h]

theorem find_erase (m : List (K × V)) (k k1 : K) (hn : (m.map Prod.fst).Nodup) :
    find (erase m k) k1 = if k = k1 then none else find m k1 := by
  induction m with
  | nil => simp [erase, find]
  | cons e m ih =>
    obtain ⟨a, v⟩ := e
    simp only [List.map_cons, List.nodup_cons] at hn
    by_cases h1 : a = k
    · by_cases h2 : k = k1
      · subst h1; subst h2
        simp only [erase, if_true]
        exact (find_eq_none_iff m a).mpr hn.1
      · subst h1; simp [erase, find, h2]
    · by_cases h2 : k = k1
      · subst h2
        simp only [erase, h1, if_false, find, if_true]
        have := ih hn.2
        simpa using this
      · have := ih hn.2
        by_cases h3 : a = k1
        · subst h3; simp [erase, find, h1, h2]
        · simp [erase, find, h1, h2, h3, this]

theorem keys_erase_sublist (m : List (K × V)) (k : K) :
    ((erase m k).map Prod.fst).Sublist (m.map Prod.fst) := by
  induction m with
  | nil => simp [erase]
  | cons e m ih =>
    obtain ⟨a, v⟩ := e
    by_cases h1 : a = k
    · simp [erase, h1]
    · simp only [erase, h1, if_false, List.map_cons]
      exact List.Sublist.cons₂ _ ih

theorem length_erase (m : List (K × V)) (k : K) (v : V) (h : find m k = some v) :
    (erase m k).length + 1 = m.length := by
  induction m with
  | nil => simp [find] at h
  | cons e m ih =>
    obtain ⟨a, x⟩ := e
    by_cases h1 : a = k
    · simp [erase, h1]
    · simp only [find, h1, if_false] at h
      simp [erase, h1, ih h]

theorem find_append_single (m : List (K × V)) (k k1 : K) (v : V) :
    find (m ++ [(k, v)]) k1
      = match find m k1 with
        | some x => some x
        | none => if k = k1 then some v else none := by
  induction m with
  | nil => simp [find]
  | cons e m ih =>
    obtain ⟨a, x⟩ := e
    by_cases h1 : a = k1
    · simp [find, h1]
    · simp [find, h1, ih]

theorem update_append_single (m : List (K × V)) (k : K) (v : V) (f : V → V)
    (h : find m k = none) : update (m ++ [(k, v)]) k f = m ++ [(k, f v)] := by
  induction m with
  | nil => simp [update]
  | cons e m ih =>
    obtain ⟨a, x⟩ := e
    by_cases h1 : a = k
    · simp [find, h1] at h
    · simp only [find, h1, if_false] at h
      simp [update, h1, ih h]

theorem emplace_of_find_none (m : List (K × V)) (k : K) (v : V) (h : find m k = none) :
    emplace m k v = m ++ [(k, v)] := by
  simp [emplace, h]

theorem foldl_add_eq {α : Type} (g : α → Nat) (l : List α) (a : Nat) :
    l.foldl (fun r e => r + g e) a = a + (l.map g).sum := by
  induction l generalizing a with
  | nil => simp
  | cons x l ih => simp [ih, Nat.add_assoc]

theorem count_refs_eq (r : Registry F P K E) : count_refs r = sumRefs r.cached := by
  simp [count_refs, sumRefs, foldl_add_eq]

theorem foldl_countP_eq {α : Type} (q : α → Bool) (l : List α) (a : Nat) :
    l.foldl (fun r e => if q e then r + 1 else r) a = a + l.countP q := by
  induction l generalizing a with
  | nil => simp
  | cons x l ih =>
    by_cases h : q x
    · simp [ih, h, List.countP_cons_of_pos]; omega
    · simp [ih, h]

theorem count_pending_eq (r : Registry F P K E) :
    count_pending r = numPending r.cached := by
  simp [count_pending, numPending, foldl_countP_eq]

theorem sumRefs_update (m : List (K × Value F P)) (k : K) (f : Value F P → Value F P)
    (v : Value F P) (h : find m k = some v) :
    sumRefs (update m k f) + v.num_refs = sumRefs m + (f v).num_refs := by
  induction m with
  | nil => simp [find] at h
  | cons e m ih =>
    obtain ⟨a, x⟩ := e
    by_cases h1 : a = k
    · simp [find, h1] at h
      subst h
      simp [update, h1, sumRefs]; omega
    · simp only [find, h1, if_false] at h
      have := ih h
      simp only [sumRefs] at this
      simp [update, h1, sumRefs]; omega

theorem sumRefs_erase (m : List (K × Value F P)) (k : K) (v : Value F P)
    (h : find m k = some v) : sumRefs (erase m k) + v.num_refs = sumRefs m := by
  induction m with
  | nil => simp [find] at h
  | cons e m ih =>
    obtain ⟨a, x⟩ := e
    by_cases h1 : a = k
    · simp [find, h1] at h
      subst h
      simp [erase, h1, sumRefs]; omega
    · simp only [find, h1, if_false] at h
      have := ih h
      simp only [sumRefs] at this
      simp [erase, h1, sumRefs]; omega

theorem sumRefs_append_single (m : List (K × Value F P)) (k : K) (v : Value F P) :
    sumRefs (m ++ [(k, v)]) = sumRefs m + v.num_refs := by
  simp [sumRefs]

theorem get?_split {α : Type} (l : List α) (i : Nat) (a : α) (h : l[i]? = some a) :
    ∃ l1 l2, l = l1 ++ a :: l2 ∧ (∀ b, l.set i b = l1 ++ b :: l2)
      ∧ l.eraseIdx i = l1 ++ l2 ∧ l1.length = i := by
  induction l generalizing i with
  | nil => simp at h
  | cons x l ih =>
    cases i with
    | zero =>
      simp at h
      subst h
      exact ⟨[], l, by simp, by simp, by simp, by simp⟩
    | succ i =>
      simp at h
      obtain ⟨l1, l2, h1, h2, h3, h4⟩ := ih i h
      refine ⟨x :: l1, l2, by simp [h1], ?_, ?_, by simp [h4]⟩
      · intro b; simp [h2 b]
      · simp [h3]

/-! ## Shape of the transitions -/

theorem refsAt_update (m : List (K × Value F P)) (k k1 : K) (f : Value F P → Value F P)
    (hf : ∀ x, (f x).num_refs = x.num_refs) : refsAt (update m k f) k1 = refsAt m k1 := by
  unfold refsAt
  rw [find_update]
  by_cases h : k = k1
  · cases hfind : find m k1 <;> simp [h, hf]
  · simp [h]

theorem Inv_init : Inv (World.init : World F P K E) := by
  refine ⟨?_, ?_, ?_, ?_, ?_, ?_⟩
  · simp [World.init, Registry.init]
  · intro k; simp [World.init, Registry.init, refsAt, find, taskKeys]
  · intro k v h; simp [World.init, Registry.init, find] at h
  · simp [World.init, taskKeys]
  · intro t h; simp [World.init] at h
  · simp [World.init, Registry.init, count_refs]

/-- A hit preserves consistency. -/
theorem Inv_hit (w w1 : World F P K E) (key : K) (v : Value F P)
    (hfind : find w.reg.cached key = some v)
    (hc : w1.reg.cached = update w.reg.cached key incRef)
    (ht : w1.tokens = w.tokens ++ [key]) (hk : w1.tasks = w.tasks) (h : Inv w) : Inv w1 := by
  refine ⟨?_, ?_, ?_, ?_, ?_, ?_⟩
  · rw [hc, keys_update]; exact h.nodup
  · intro k
    have hr := h.refs k
    simp only [taskKeys, hk, ht, hc, refsAt, find_update, List.count_append] at hr ⊢
    by_cases hkk : key = k
    · subst hkk
      simp [hfind, incRef] at hr ⊢
      omega
    · simp [hkk] at hr ⊢
      have : List.count k [key] = 0 := by
        simp [List.count_eq_zero]; exact fun h => hkk h.symm
      omega
  · intro k x hx
    rw [hc, find_update] at hx
    by_cases hkk : key = k
    · subst hkk
      simp [hfind, incRef] at hx
      subst hx; simp
    · simp [hkk] at hx
      exact h.pos k x hx
  · simp only [taskKeys, hk]; exact h.taskNodup
  · intro t ht1
    rw [hk] at ht1
    obtain ⟨x, hx1, hx2⟩ := h.pending t ht1
    rw [hc, find_update]
    by_cases hkk : key = t.token
    · exact ⟨incRef x, by simp [hkk, hx1], by simp [incRef, hx2]⟩
    · exact ⟨x, by simp [hkk, hx1], hx2⟩
  · have hs := h.sum
    have := sumRefs_update w.reg.cached key incRef v hfind
    rw [count_refs_eq] at hs ⊢
    rw [hc, ht, hk]
    simp [incRef] at this ⊢
    omega

/-- A miss preserves consistency. -/
theorem Inv_miss (w w1 : World F P K E) (key : K) (t : CompileTask F P K)
    (hfind : find w.reg.cached key = none)
    (hc : w1.reg.cached = w.reg.cached ++ [(key, incRef Value.ctor)])
    (ht : w1.tokens = w.tokens ++ [key]) (hk : w1.tasks = w.tasks ++ [(t, false)])
    (htk : t.token = key) (h : Inv w) : Inv w1 := by
  have hzero := h.refs key
  simp only [refsAt, hfind] at hzero
  have hnotask : key ∉ taskKeys w := by
    intro hmem
    have := List.count_pos_iff.mpr hmem
    omega
  refine ⟨?_, ?_, ?_, ?_, ?_, ?_⟩
  · rw [hc]
    simp only [List.map_append, List.map_cons, List.map_nil]
    rw [List.nodup_append]
    refine ⟨h.nodup, by simp, ?_⟩
    intro a ha hb
    simp at hb
    subst hb
    exact (find_eq_none_iff _ _).mp hfind ha
  · intro k
    have hr := h.refs k
    simp only [taskKeys, hk, ht, hc, refsAt, find_append_single, List.count_append,
      List.map_append, List.map_cons, List.map_nil, htk] at hr ⊢
    by_cases hkk : key = k
    · subst hkk
      simp [hfind, incRef, Value.ctor] at hr ⊢
      omega
    · have : List.count k [key] = 0 := by
        simp [List.count_eq_zero]; exact fun h => hkk h.symm
      cases hf : find w.reg.cached k with
      | none => simp [hf, hkk] at hr ⊢; omega
      | some x => simp [hf] at hr ⊢; omega
  · intro k x hx
    rw [hc, find_append_single] at hx
    cases hf : find w.reg.cached k with
    | none =>
      by_cases hkk : key = k
      · simp [hf, hkk] at hx
        subst hx; simp [incRef, Value.ctor]
      · simp [hf, hkk] at hx
    | some y =>
      simp [hf] at hx
      subst hx
      exact h.pos k y hf
  · simp only [taskKeys, hk, List.map_append, List.map_cons, List.map_nil, htk]
    rw [List.nodup_append]
    refine ⟨h.taskNodup, by simp, ?_⟩
    intro a ha hb
    simp at hb
    subst hb
    exact hnotask ha
  · intro t1 ht1
    rw [hk] at ht1
    rw [hc, find_append_single]
    rcases List.mem_append.mp ht1 with ht1 | ht1
    · obtain ⟨x, hx1, hx2⟩ := h.pending t1 ht1
      exact ⟨x, by simp [hx1], hx2⟩
    · simp at ht1
      subst ht1
      exact ⟨incRef Value.ctor, by simp [htk, hfind], by simp [incRef, Value.ctor]⟩
  · have hs := h.sum
    rw [count_refs_eq] at hs ⊢
    rw [hc, ht, hk, sumRefs_append_single]
    simp [incRef, Value.ctor]
    omega

theorem compile_section_hit (gen_key : F → P → K) (w : World F P K E) (f : F) (p : P)
    (ex : E → Outcome) (v : Value F P) (hfind : find w.reg.cached (gen_key f p) = some v) :
    compile_section gen_key w f p ex
      = ({ reg := { w.reg with cached := update w.reg.cached (gen_key f p) incRef },
           tokens := w.tokens ++ [gen_key f p],
           tasks := w.tasks,
           log := w.log ++ [Event.lock, Event.unlock] }, gen_key f p, none) := by
  simp [compile_section, compile_locked, hfind, lockedEvents, submitEvents]

theorem compile_section_miss_unbound (gen_key : F → P → K) (w : World F P K E) (f : F)
    (p : P) (ex : E → Outcome) (hfind : find w.reg.cached (gen_key f p) = none)
    (hs : w.reg.executor_stack.getLast? = none) :
    compile_section gen_key w f p ex
      = ({ reg := { w.reg with
                    cached := w.reg.cached ++ [(gen_key f p, incRef Value.ctor)] },
           tokens := w.tokens ++ [gen_key f p],
           tasks := w.tasks ++ [(⟨f, p, gen_key f p⟩, false)],
           log := w.log ++ [Event.lock, Event.task_created (gen_key f p), Event.unlock] },
         gen_key f p, some ⟨f, p, gen_key f p⟩) := by
  simp [compile_section, compile_locked, hfind, lockedEvents, submitEvents, hs, emplace,
    update_append_single]

theorem compile_section_miss_consumed (gen_key : F → P → K) (w : World F P K E) (f : F)
    (p : P) (ex : E → Outcome) (top : Nat × E)
    (hfind : find w.reg.cached (gen_key f p) = none)
    (hs : w.reg.executor_stack.getLast? = some top) (hex : ex top.2 = Outcome.consumed) :
    compile_section gen_key w f p ex
      = ({ reg := { w.reg with
                    cached := w.reg.cached ++ [(gen_key f p, incRef Value.ctor)] },
           tokens := w.tokens ++ [gen_key f p],
           tasks := w.tasks ++ [(⟨f, p, gen_key f p⟩, false)],
           log := w.log ++ [Event.lock, Event.task_created (gen_key f p),
                            Event.execute top.1 (gen_key f p), Event.unlock] },
         gen_key f p, none) := by
  simp [compile_section, compile_locked, hfind, lockedEvents, submitEvents, hs, hex, emplace,
    update_append_single]

theorem compile_section_miss_declined (gen_key : F → P → K) (w : World F P K E) (f : F)
    (p : P) (ex : E → Outcome) (top : Nat × E)
    (hfind : find w.reg.cached (gen_key f p) = none)
    (hs : w.reg.executor_stack.getLast? = some top) (hex : ex top.2 = Outcome.declined) :
    compile_section gen_key w f p ex
      = ({ reg := { w.reg with
                    cached := w.reg.cached ++ [(gen_key f p, incRef Value.ctor)] },
           tokens := w.tokens ++ [gen_key f p],
           tasks := w.tasks ++ [(⟨f, p, gen_key f p⟩, false)],
           log := w.log ++ [Event.lock, Event.task_created (gen_key f p),
                            Event.execute top.1 (gen_key f p), Event.unlock] },
         gen_key f p, some ⟨f, p, gen_key f p⟩) := by
  simp [compile_section, compile_locked, hfind, lockedEvents, submitEvents, hs, hex, emplace,
    update_append_single]

/-- The fields of the world after the guarded block of a miss, whatever the executor
stack holds. -/
theorem compile_section_miss (gen_key : F → P → K) (w : World F P K E) (f : F)
    (p : P) (ex : E → Outcome) (hfind : find w.reg.cached (gen_key f p) = none) :
    (compile_section gen_key w f p ex).1.reg.cached
        = w.reg.cached ++ [(gen_key f p, incRef Value.ctor)]
      ∧ (compile_section gen_key w f p ex).1.reg.executor_tag = w.reg.executor_tag
      ∧ (compile_section gen_key w f p ex).1.reg.executor_stack = w.reg.executor_stack
      ∧ (compile_section gen_key w f p ex).1.tokens = w.tokens ++ [gen_key f p]
      ∧ (compile_section gen_key w f p ex).1.tasks
          = w.tasks ++ [(⟨f, p, gen_key f p⟩, false)]
      ∧ (compile_section gen_key w f p ex).2.1 = gen_key f p := by
  cases hs : w.reg.executor_stack.getLast? with
  | none => rw [compile_section_miss_unbound gen_key w f p ex hfind hs]; simp
  | some top =>
    cases hex : ex top.2 with
    | consumed => rw [compile_section_miss_consumed gen_key w f p ex top hfind hs hex]; simp
    | declined => rw [compile_section_miss_declined gen_key w f p ex top hfind hs hex]; simp

theorem Inv_compile_section (gen_key : F → P → K) (w : World F P K E) (f : F) (p : P)
    (ex : E → Outcome) (h : Inv w) : Inv (compile_section gen_key w f p ex).1 := by
  cases hfind : find w.reg.cached (gen_key f p) with
  | some v =>
    rw [compile_section_hit gen_key w f p ex v hfind]
    exact Inv_hit w _ (gen_key f p) v hfind rfl rfl rfl h
  | none =>
    obtain ⟨h1, _, _, h4, h5, _⟩ := compile_section_miss gen_key w f p ex hfind
    exact Inv_miss w _ (gen_key f p) ⟨f, p, gen_key f p⟩ hfind h1 h4 h5 rfl h

theorem release_shape (r r1 : Registry F P K E) (k : K) (h : release r k = some r1) :
    ∃ v, find r.cached k = some v ∧ 1 ≤ v.num_refs
      ∧ r1.executor_tag = r.executor_tag ∧ r1.executor_stack = r.executor_stack
      ∧ ((v.num_refs = 1 ∧ r1.cached = erase r.cached k)
          ∨ (2 ≤ v.num_refs ∧ r1.cached = update r.cached k decRef)) := by
  unfold release at h
  cases hfind : find r.cached k with
  | none => simp [hfind] at h
  | some v =>
    simp only [hfind] at h
    by_cases h0 : v.num_refs = 0
    · simp [h0] at h
    · by_cases h1 : v.num_refs - 1 = 0
      · simp only [h0, h1, if_true, if_false, Option.some.injEq] at h
        subst h
        exact ⟨v, rfl, by omega, rfl, rfl, Or.inl ⟨by omega, rfl⟩⟩
      · simp only [h0, h1, if_false, Option.some.injEq] at h
        subst h
        exact ⟨v, rfl, by omega, rfl, rfl, Or.inr ⟨by omega, rfl⟩⟩

theorem release_of_find (r : Registry F P K E) (k : K) (v : Value F P)
    (hfind : find r.cached k = some v) (hpos : 1 ≤ v.num_refs) :
    ∃ r1, release r k = some r1 := by
  unfold release
  simp only [hfind]
  by_cases h1 : v.num_refs - 1 = 0
  · refine ⟨{ r with cached := erase r.cached k }, ?_⟩
    simp [h1, show v.num_refs ≠ 0 by omega]
  · refine ⟨{ r with cached := update r.cached k decRef }, ?_⟩
    simp [h1, show v.num_refs ≠ 0 by omega]

theorem run_task_shape (w w1 : World F P K E) (i : Nat) (h : run_task w i = some w1) :
    ∃ t b v, w.tasks[i]? = some (t, b) ∧ find w.reg.cached t.token = some v
      ∧ w1 = { reg := { w.reg with cached :=
                        (update w.reg.cached t.token
                          (setResult ⟨t.function, t.pass_params, backendCalls w.log⟩)) },
               tokens := w.tokens, tasks := w.tasks.set i (t, true),
               log := w.log ++ [Event.backend t.token, Event.lock, Event.publish t.token,
                                Event.unlock] } := by
  unfold run_task at h
  cases hget : w.tasks[i]? with
  | none => simp [hget] at h
  | some tb =>
    obtain ⟨t, b⟩ := tb
    simp only [hget, CompileTask.run] at h
    cases hfind : find w.reg.cached t.token with
    | none => simp [hfind] at h
    | some v =>
      simp only [hfind, Option.some.injEq] at h
      exact ⟨t, b, v, rfl, hfind, h.symm⟩

theorem run_task_of_find (w : World F P K E) (i : Nat) (t : CompileTask F P K) (b : Bool)
    (v : Value F P) (hget : w.tasks[i]? = some (t, b))
    (hfind : find w.reg.cached t.token = some v) :
    run_task w i
      = some { reg := { w.reg with cached :=
                        (update w.reg.cached t.token
                          (setResult ⟨t.function, t.pass_params, backendCalls w.log⟩)) },
               tokens := w.tokens, tasks := w.tasks.set i (t, true),
               log := w.log ++ [Event.backend t.token, Event.lock, Event.publish t.token,
                                Event.unlock] } := by
  simp [run_task, hget, CompileTask.run, hfind, runEvents]

theorem destroy_task_shape (w w1 : World F P K E) (i : Nat)
    (h : destroy_task w i = some w1) :
    ∃ t b, w.tasks[i]? = some (t, b) ∧ release w.reg t.token = some w1.reg
      ∧ w1.tokens = w.tokens ∧ w1.tasks = w.tasks.eraseIdx i
      ∧ w1.log = w.log ++ [Event.lock, Event.unlock] := by
  unfold destroy_task at h
  cases hget : w.tasks[i]? with
  | none => simp [hget] at h
  | some tb =>
    obtain ⟨t, b⟩ := tb
    simp only [hget] at h
    cases hrel : release w.reg t.token with
    | none => simp [hrel] at h
    | some r =>
      simp only [hrel, Option.some.injEq] at h
      subst h
      exact ⟨t, b, rfl, hrel, rfl, rfl, rfl⟩

theorem release_token_shape (w w1 : World F P K E) (i : Nat)
    (h : release_token w i = some w1) :
    ∃ k, w.tokens[i]? = some k ∧ release w.reg k = some w1.reg
      ∧ w1.tokens = w.tokens.eraseIdx i ∧ w1.tasks = w.tasks
      ∧ w1.log = w.log ++ [Event.lock, Event.unlock] := by
  unfold release_token at h
  cases hget : w.tokens[i]? with
  | none => simp [hget] at h
  | some k =>
    simp only [hget] at h
    cases hrel : release w.reg k with
    | none => simp [hrel] at h
    | some r =>
      simp only [hrel, Option.some.injEq] at h
      subst h
      exact ⟨k, rfl, hrel, rfl, rfl, rfl⟩

/-- Running a task preserves consistency. -/
theorem Inv_run_task (w w1 : World F P K E) (i : Nat) (hrun : run_task w i = some w1)
    (h : Inv w) : Inv w1 := by
  obtain ⟨t, b, v, hget, hfind, rfl⟩ := run_task_shape w w1 i hrun
  obtain ⟨l1, l2, hl, hset, _, _⟩ := get?_split w.tasks i (t, b) hget
  have hkeys : (List.map (fun t => t.1.token) (w.tasks.set i (t, true)))
      = taskKeys w := by
    rw [hset, taskKeys, hl]; simp
  have hnd := h.taskNodup
  rw [taskKeys, hl] at hnd
  simp only [List.map_append, List.map_cons] at hnd
  have hnd2 := List.nodup_middle.mp hnd
  simp only [List.nodup_cons, List.mem_append, List.mem_map] at hnd2
  refine ⟨?_, ?_, ?_, ?_, ?_, ?_⟩
  · simp only [keys_update]; exact h.nodup
  · intro k
    simp only [taskKeys, hkeys]
    rw [refsAt_update _ _ _ _ (by intro x; rfl)]
    exact h.refs k
  · intro k x hx
    simp only [find_update] at hx
    by_cases hkk : t.token = k
    · subst hkk
      simp [hfind, setResult] at hx
      subst hx
      exact h.pos _ v hfind
    · simp [hkk] at hx
      exact h.pos k x hx
  · simp only [taskKeys, hkeys]; exact h.taskNodup
  · intro t1 ht1
    simp only [hset] at ht1
    have hne : t.token ≠ t1.token := by
      intro heq
      rcases List.mem_append.mp ht1 with hm | hm
      · exact hnd2.1 (Or.inl ⟨(t1, false), hm, heq.symm⟩)
      · simp at hm
        exact hnd2.1 (Or.inr ⟨(t1, false), hm, heq.symm⟩)
    have hmem : (t1, false) ∈ w.tasks := by
      rw [hl]
      rcases List.mem_append.mp ht1 with hm | hm
      · exact List.mem_append_left _ hm
      · simp at hm
        exact List.mem_append_right _ (List.mem_cons_of_mem _ hm)
    obtain ⟨x, hx1, hx2⟩ := h.pending t1 hmem
    exact ⟨x, by simp [find_update, hne, hx1], hx2⟩
  · have hs := h.sum
    have := sumRefs_update w.reg.cached t.token
      (setResult ⟨t.function, t.pass_params, backendCalls w.log⟩) v hfind
    rw [count_refs_eq] at hs ⊢
    simp [setResult] at this ⊢
    omega

theorem count_split {α : Type} [DecidableEq α] (l1 l2 : List α) (a k : α) :
    (l1 ++ l2).count k + (if a = k then 1 else 0) = (l1 ++ a :: l2).count k := by
  by_cases h : a = k
  · subst h; simp [List.count_append]; omega
  · simp [List.count_append, List.count_cons, h]

/-- Releasing one Token (of a caller or of a task) preserves consistency. -/
theorem Inv_drop (w w1 : World F P K E) (k : K)
    (hrel : release w.reg k = some w1.reg)
    (hcount : ∀ k1, w1.tokens.count k1 + (taskKeys w1).count k1 + (if k = k1 then 1 else 0)
      = w.tokens.count k1 + (taskKeys w).count k1)
    (hsub : w1.tasks.Sublist w.tasks)
    (hlen : w1.tokens.length + w1.tasks.length + 1 = w.tokens.length + w.tasks.length)
    (h : Inv w) : Inv w1 := by
  obtain ⟨v, hfind, hpos, _, _, hcase⟩ := release_shape w.reg w1.reg k hrel
  have hfind1 : ∀ k1, find w1.reg.cached k1
      = if k = k1 then (if v.num_refs = 1 then none else some (decRef v))
        else find w.reg.cached k1 := by
    intro k1
    rcases hcase with ⟨h1, hc⟩ | ⟨h2, hc⟩
    · rw [hc, find_erase _ _ _ h.nodup]; simp [h1]
    · rw [hc, find_update]
      by_cases hkk : k = k1
      · subst hkk; simp [hfind, show v.num_refs ≠ 1 by omega]
      · simp [hkk]
  have hrefs1 : ∀ k1, refsAt w1.reg.cached k1 + (if k = k1 then 1 else 0)
      = refsAt w.reg.cached k1 := by
    intro k1
    simp only [refsAt, hfind1]
    by_cases hkk : k = k1
    · subst hkk
      by_cases h1 : v.num_refs = 1
      · simp [h1, hfind]
      · simp [h1, hfind, decRef]; omega
    · simp [hkk]
  refine ⟨?_, ?_, ?_, ?_, ?_, ?_⟩
  · rcases hcase with ⟨_, hc⟩ | ⟨_, hc⟩
    · rw [hc]; exact List.Nodup.sublist (keys_erase_sublist _ _) h.nodup
    · rw [hc, keys_update]; exact h.nodup
  · intro k1
    have h1 := hrefs1 k1
    have h2 := hcount k1
    have h3 := h.refs k1
    omega
  · intro k1 x hx
    rw [hfind1] at hx
    by_cases hkk : k = k1
    · by_cases h1 : v.num_refs = 1
      · simp [hkk, h1] at hx
      · simp [hkk, h1] at hx
        subst hx
        simp [decRef]; omega
    · simp [hkk] at hx
      exact h.pos k1 x hx
  · exact List.Nodup.sublist (List.Sublist.map _ hsub) h.taskNodup
  · intro t ht
    obtain ⟨x, hx1, hx2⟩ := h.pending t (hsub.subset ht)
    rw [hfind1]
    by_cases hkk : k = t.token
    · have hmem : t.token ∈ taskKeys w1 := List.mem_map.mpr ⟨(t, false), ht, rfl⟩
      have hc1 := List.count_pos_iff.mpr hmem
      have hc2 := hcount t.token
      have hc3 := h.refs t.token
      simp only [refsAt, hx1] at hc3
      rw [hkk, hx1] at hfind
      simp only [Option.some.injEq] at hfind
      subst hfind
      simp only [hkk, if_true] at hc2
      refine ⟨decRef x, ?_, by simp [decRef, hx2]⟩
      simp [hkk, show x.num_refs ≠ 1 by omega]
    · exact ⟨x, by simp [hkk, hx1], hx2⟩
  · have hs := h.sum
    rw [count_refs_eq] at hs ⊢
    rcases hcase with ⟨h1, hc⟩ | ⟨h2, hc⟩
    · have := sumRefs_erase w.reg.cached k v hfind
      rw [hc]; omega
    · have := sumRefs_update w.reg.cached k decRef v hfind
      rw [hc]
      simp [decRef] at this
      omega

theorem Inv_release_token (w w1 : World F P K E) (i : Nat)
    (hstep : release_token w i = some w1) (h : Inv w) : Inv w1 := by
  obtain ⟨k, hget, hrel, ht, hk, _⟩ := release_token_shape w w1 i hstep
  obtain ⟨l1, l2, hl, _, herase, _⟩ := get?_split w.tokens i k hget
  refine Inv_drop w w1 k hrel ?_ ?_ ?_ h
  · intro k1
    have := count_split l1 l2 k k1
    simp only [taskKeys, hk, ht, herase]
    rw [hl]; omega
  · rw [hk]
  · rw [hk, ht, herase, hl]; simp; omega

theorem Inv_destroy_task (w w1 : World F P K E) (i : Nat)
    (hstep : destroy_task w i = some w1) (h : Inv w) : Inv w1 := by
  obtain ⟨t, b, hget, hrel, ht, hk, _⟩ := destroy_task_shape w w1 i hstep
  obtain ⟨l1, l2, hl, _, herase, _⟩ := get?_split w.tasks i (t, b) hget
  refine Inv_drop w w1 t.token hrel ?_ ?_ ?_ h
  · intro k1
    have := count_split (l1.map (fun t => t.1.token)) (l2.map (fun t => t.1.token))
      t.token k1
    simp only [taskKeys, hk, ht, herase]
    rw [hl]
    simp only [List.map_append, List.map_cons]
    omega
  · rw [hk, herase, hl]; simp
  · rw [hk, ht, herase, hl]; simp; omega

theorem Inv_attach (w : World F P K E) (e : E) (h : Inv w) : Inv (attach w e).1 :=
  ⟨h.nodup, h.refs, h.pos, h.taskNodup, h.pending, h.sum⟩

theorem Inv_detach (w : World F P K E) (tag : Nat) (h : Inv w) : Inv (detach w tag) :=
  ⟨h.nodup, h.refs, h.pos, h.taskNodup, h.pending, h.sum⟩

theorem compile_shape (gen_key : F → P → K) (w : World F P K E) (f : F) (p : P)
    (ex : E → Outcome) (w3 : World F P K E) (tok : K)
    (h : compile gen_key w f p ex = some (w3, tok)) :
    tok = (compile_section gen_key w f p ex).2.1
      ∧ (((compile_section gen_key w f p ex).2.2 = none
            ∧ w3 = (compile_section gen_key w f p ex).1)
          ∨ (∃ t w2, (compile_section gen_key w f p ex).2.2 = some t
            ∧ run_task (compile_section gen_key w f p ex).1 w.tasks.length = some w2
            ∧ destroy_task w2 w.tasks.length = some w3)) := by
  unfold compile at h
  rcases hcs : compile_section gen_key w f p ex with ⟨w1, token, task⟩
  rw [hcs] at h
  cases task with
  | none =>
    simp only [Option.some.injEq, Prod.mk.injEq] at h
    exact ⟨h.2.symm, Or.inl ⟨rfl, h.1.symm⟩⟩
  | some t =>
    simp only at h
    cases hr : run_task w1 w.tasks.length with
    | none => simp [hr] at h
    | some w2 =>
      simp only [hr] at h
      cases hd : destroy_task w2 w.tasks.length with
      | none => simp [hd] at h
      | some w4 =>
        simp only [hd, Option.some.injEq, Prod.mk.injEq] at h
        exact ⟨h.2.symm, Or.inr ⟨t, w2, rfl, rfl, by rw [← h.1]; exact hd⟩⟩

theorem Inv_compile (gen_key : F → P → K) (w : World F P K E) (f : F) (p : P)
    (ex : E → Outcome) (w3 : World F P K E) (tok : K)
    (hc : compile gen_key w f p ex = some (w3, tok)) (h : Inv w) : Inv w3 := by
  obtain ⟨_, hcase⟩ := compile_shape gen_key w f p ex w3 tok hc
  have h1 := Inv_compile_section gen_key w f p ex h
  rcases hcase with ⟨_, rfl⟩ | ⟨t, w2, _, hr, hd⟩
  · exact h1
  · exact Inv_destroy_task w2 w3 _ hd (Inv_run_task _ w2 _ hr h1)

/-- Every transition preserves consistency. -/
theorem Inv_step (gen_key : F → P → K) (w w1 : World F P K E) (op : Op F P E)
    (hstep : step gen_key w op = some w1) (h : Inv w) : Inv w1 := by
  cases op with
  | compile f p ex =>
    simp only [step, Option.map_eq_some'] at hstep
    obtain ⟨⟨w3, tok⟩, hc, rfl⟩ := hstep
    exact Inv_compile gen_key w f p ex w3 tok hc h
  | compile_section f p ex =>
    simp only [step, Option.some.injEq] at hstep
    subst hstep
    exact Inv_compile_section gen_key w f p ex h
  | release i => exact Inv_release_token w w1 i hstep h
  | run i => exact Inv_run_task w w1 i hstep h
  | destroy i => exact Inv_destroy_task w w1 i hstep h
  | attach e =>
    simp only [step, Option.some.injEq] at hstep
    subst hstep
    exact Inv_attach w e h
  | detach tag =>
    simp only [step, Option.some.injEq] at hstep
    subst hstep
    exact Inv_detach w tag h

/-- Consistency holds along every sequence of transitions. -/
theorem Inv_runOps (gen_key : F → P → K) (ops : List (Op F P E)) (w w1 : World F P K E)
    (hrun : runOps gen_key w ops = some w1) (h : Inv w) : Inv w1 := by
  induction ops generalizing w with
  | nil =>
    simp only [runOps, Option.some.injEq] at hrun
    subst hrun; exact h
  | cons op ops ih =>
    simp only [runOps] at hrun
    cases hs : step gen_key w op with
    | none => simp [hs] at hrun
    | some w2 =>
      simp only [hs] at hrun
      exact ih w2 hrun (Inv_step gen_key w w2 op hs h)

/-! ## The whole `compile` call -/

theorem find_append_new (m : List (K × V)) (k : K) (v : V) (h : find m k = none) :
    find (m ++ [(k, v)]) k = some v := by
  rw [find_append_single]; simp [h]

theorem compile_hit (gen_key : F → P → K) (w : World F P K E) (f : F) (p : P)
    (ex : E → Outcome) (v : Value F P) (hfind : find w.reg.cached (gen_key f p) = some v) :
    compile gen_key w f p ex
      = some ({ reg := { w.reg with cached := update w.reg.cached (gen_key f p) incRef },
                tokens := w.tokens ++ [gen_key f p],
                tasks := w.tasks,
                log := w.log ++ [Event.lock, Event.unlock] }, gen_key f p) := by
  simp [compile, compile_section_hit gen_key w f p ex v hfind]

theorem compile_miss_consumed (gen_key : F → P → K) (w : World F P K E) (f : F)
    (p : P) (ex : E → Outcome) (top : Nat × E)
    (hfind : find w.reg.cached (gen_key f p) = none)
    (hs : w.reg.executor_stack.getLast? = some top) (hex : ex top.2 = Outcome.consumed) :
    compile gen_key w f p ex
      = some ({ reg := { w.reg with
                    cached := w.reg.cached ++ [(gen_key f p, incRef Value.ctor)] },
                tokens := w.tokens ++ [gen_key f p],
                tasks := w.tasks ++ [(⟨f, p, gen_key f p⟩, false)],
                log := w.log ++ [Event.lock, Event.task_created (gen_key f p),
                                 Event.execute top.1 (gen_key f p), Event.unlock] },
              gen_key f p) := by
  simp [compile, compile_section_miss_consumed gen_key w f p ex top hfind hs hex]

theorem eraseIdx_append_last {α : Type} (l : List α) (x : α) :
    (l ++ [x]).eraseIdx l.length = l := by
  induction l with
  | nil => rfl
  | cons a l ih => simp [List.eraseIdx, ih]

/-- The continuation of `compile` when the local `task` is not null: run, then
destruction of the task on return. -/
theorem run_then_destroy (w : World F P K E) (m : List (K × Value F P)) (key : K)
    (tasks : List (CompileTask F P K × Bool)) (t : CompileTask F P K)
    (hm : find m key = none) (hc : w.reg.cached = m ++ [(key, incRef Value.ctor)])
    (hk : w.tasks = tasks ++ [(t, false)]) (htk : t.token = key) :
    ∃ w2, run_task w tasks.length = some w2
      ∧ destroy_task w2 tasks.length
        = some { reg := { w.reg with
                          cached := m ++ [(key,
                            ⟨1, some ⟨t.function, t.pass_params, backendCalls w.log⟩,
                                some ⟨t.function, t.pass_params, backendCalls w.log⟩⟩)] },
                 tokens := w.tokens, tasks := tasks,
                 log := w.log ++ [Event.backend key, Event.lock, Event.publish key,
                                  Event.unlock, Event.lock, Event.unlock] } := by
  subst htk
  have hget : w.tasks[tasks.length]? = some (t, false) := by simp [hk]
  have hfind : find w.reg.cached t.token = some (incRef Value.ctor) := by
    rw [hc]; exact find_append_new m t.token _ hm
  refine ⟨_, run_task_of_find w tasks.length t false _ hget hfind, ?_⟩
  have hupd : update w.reg.cached t.token
      (setResult ⟨t.function, t.pass_params, backendCalls w.log⟩)
      = m ++ [(t.token,
          setResult ⟨t.function, t.pass_params, backendCalls w.log⟩
            (incRef Value.ctor))] := by
    rw [hc]; exact update_append_single m t.token _ _ hm
  have hrel : release
      ({ w.reg with cached :=
          (update w.reg.cached t.token
            (setResult ⟨t.function, t.pass_params, backendCalls w.log⟩)) } :
        Registry F P K E) t.token
      = some { w.reg with
               cached := m ++ [(t.token,
                 ⟨1, some ⟨t.function, t.pass_params, backendCalls w.log⟩,
                     some ⟨t.function, t.pass_params, backendCalls w.log⟩⟩)] } := by
    simp only [release, hupd, find_append_new m t.token _ hm]
    simp [setResult, incRef, Value.ctor, update_append_single m t.token _ _ hm, decRef]
  have hget2 : (w.tasks.set tasks.length (t, true))[tasks.length]? = some (t, true) := by
    simp [hk]
  have herase : (w.tasks.set tasks.length (t, true)).eraseIdx tasks.length = tasks := by
    simp [hk, eraseIdx_append_last]
  simp only [destroy_task, hget2, hrel, herase]
  simp

theorem backendCalls_append (l1 l2 : List (Event K)) :
    backendCalls (l1 ++ l2) = backendCalls l1 + backendCalls l2 := by
  simp [backendCalls, List.countP_append]

theorem compile_miss_unbound (gen_key : F → P → K) (w : World F P K E) (f : F)
    (p : P) (ex : E → Outcome) (hfind : find w.reg.cached (gen_key f p) = none)
    (hs : w.reg.executor_stack.getLast? = none) :
    compile gen_key w f p ex
      = some ({ reg := { w.reg with
                    cached := w.reg.cached
                      ++ [(gen_key f p, ⟨1, some ⟨f, p, backendCalls w.log⟩,
                                             some ⟨f, p, backendCalls w.log⟩⟩)] },
                tokens := w.tokens ++ [gen_key f p],
                tasks := w.tasks,
                log := w.log ++ [Event.lock, Event.task_created (gen_key f p),
                                 Event.unlock, Event.backend (gen_key f p), Event.lock,
                                 Event.publish (gen_key f p), Event.unlock, Event.lock,
                                 Event.unlock] },
              gen_key f p) := by
  have hcs := compile_section_miss_unbound gen_key w f p ex hfind hs
  obtain ⟨w2, hr, hd⟩ := run_then_destroy (compile_section gen_key w f p ex).1
    w.reg.cached (gen_key f p) w.tasks ⟨f, p, gen_key f p⟩ hfind
    (by rw [hcs]) (by rw [hcs]) rfl
  simp only [compile, hcs] at hr hd ⊢
  simp only [hr, hd]
  simp [backendCalls]

theorem compile_miss_declined (gen_key : F → P → K) (w : World F P K E) (f : F)
    (p : P) (ex : E → Outcome) (top : Nat × E)
    (hfind : find w.reg.cached (gen_key f p) = none)
    (hs : w.reg.executor_stack.getLast? = some top) (hex : ex top.2 = Outcome.declined) :
    compile gen_key w f p ex
      = some ({ reg := { w.reg with
                    cached := w.reg.cached
                      ++ [(gen_key f p, ⟨1, some ⟨f, p, backendCalls w.log⟩,
                                             some ⟨f, p, backendCalls w.log⟩⟩)] },
                tokens := w.tokens ++ [gen_key f p],
                tasks := w.tasks,
                log := w.log ++ [Event.lock, Event.task_created (gen_key f p),
                                 Event.execute top.1 (gen_key f p),
                                 Event.unlock, Event.backend (gen_key f p), Event.lock,
                                 Event.publish (gen_key f p), Event.unlock, Event.lock,
                                 Event.unlock] },
              gen_key f p) := by
  have hcs := compile_section_miss_declined gen_key w f p ex top hfind hs hex
  obtain ⟨w2, hr, hd⟩ := run_then_destroy (compile_section gen_key w f p ex).1
    w.reg.cached (gen_key f p) w.tasks ⟨f, p, gen_key f p⟩ hfind
    (by rw [hcs]) (by rw [hcs]) rfl
  simp only [compile, hcs] at hr hd ⊢
  simp only [hr, hd]
  simp [backendCalls]

/-- The call `compile` always returns, and the Token it returns is for the key. -/
theorem compile_total (gen_key : F → P → K) (w : World F P K E) (f : F) (p : P)
    (ex : E → Outcome) : ∃ w1, compile gen_key w f p ex = some (w1, gen_key f p) := by
  cases hfind : find w.reg.cached (gen_key f p) with
  | some v => exact ⟨_, compile_hit gen_key w f p ex v hfind⟩
  | none =>
    cases hs : w.reg.executor_stack.getLast? with
    | none => exact ⟨_, compile_miss_unbound gen_key w f p ex hfind hs⟩
    | some top =>
      cases hex : ex top.2 with
      | consumed => exact ⟨_, compile_miss_consumed gen_key w f p ex top hfind hs hex⟩
      | declined => exact ⟨_, compile_miss_declined gen_key w f p ex top hfind hs hex⟩

/-! ## Positive counts -/

theorem mem_update (m : List (K × V)) (k : K) (f : V → V) (e : K × V)
    (h : e ∈ update m k f) : e ∈ m ∨ ∃ v, find m k = some v ∧ e = (k, f v) := by
  induction m with
  | nil => simp [update] at h
  | cons x m ih =>
    obtain ⟨a, y⟩ := x
    by_cases h1 : a = k
    · simp only [update, h1, if_true, List.mem_cons] at h
      rcases h with h | h
      · exact Or.inr ⟨y, by simp [find, h1], h⟩
      · exact Or.inl (List.mem_cons_of_mem _ h)
    · simp only [update, h1, if_false, List.mem_cons] at h
      rcases h with h | h
      · exact Or.inl (by simp [h])
      · rcases ih h with h2 | ⟨v, h2, h3⟩
        · exact Or.inl (List.mem_cons_of_mem _ h2)
        · exact Or.inr ⟨v, by simp [find, h1, h2], h3⟩

theorem mem_erase (m : List (K × V)) (k : K) (e : K × V) (h : e ∈ erase m k) : e ∈ m := by
  induction m with
  | nil => simp [erase] at h
  | cons x m ih =>
    obtain ⟨a, y⟩ := x
    by_cases h1 : a = k
    · simp only [erase, h1, if_true] at h
      exact List.mem_cons_of_mem _ h
    · simp only [erase, h1, if_false, List.mem_cons] at h
      rcases h with h | h
      · simp [h]
      · exact List.mem_cons_of_mem _ (ih h)

theorem positive_release (r r1 : Registry F P K E) (k : K) (hrel : release r k = some r1)
    (h : ∀ e ∈ r.cached, 1 ≤ e.2.num_refs) : ∀ e ∈ r1.cached, 1 ≤ e.2.num_refs := by
  obtain ⟨v, hfind, _, _, _, hcase⟩ := release_shape r r1 k hrel
  intro e he
  rcases hcase with ⟨_, hc⟩ | ⟨h2, hc⟩
  · rw [hc] at he; exact h e (mem_erase _ _ _ he)
  · rw [hc] at he
    rcases mem_update _ _ _ _ he with he | ⟨x, hx, rfl⟩
    · exact h e he
    · rw [hfind] at hx
      simp only [Option.some.injEq] at hx
      subst hx
      simp [decRef]; omega

theorem positive_compile_section (gen_key : F → P → K) (w : World F P K E) (f : F) (p : P)
    (ex : E → Outcome) (h : ∀ e ∈ w.reg.cached, 1 ≤ e.2.num_refs) :
    ∀ e ∈ (compile_section gen_key w f p ex).1.reg.cached, 1 ≤ e.2.num_refs := by
  intro e he
  cases hfind : find w.reg.cached (gen_key f p) with
  | some v =>
    rw [compile_section_hit gen_key w f p ex v hfind] at he
    rcases mem_update _ _ _ _ he with he | ⟨x, _, rfl⟩
    · exact h e he
    · simp [incRef]
  | none =>
    rw [(compile_section_miss gen_key w f p ex hfind).1] at he
    rcases List.mem_append.mp he with he | he
    · exact h e he
    · simp at he
      subst he
      simp [incRef, Value.ctor]

theorem positive_run_task (w w1 : World F P K E) (i : Nat) (hrun : run_task w i = some w1)
    (h : ∀ e ∈ w.reg.cached, 1 ≤ e.2.num_refs) : ∀ e ∈ w1.reg.cached, 1 ≤ e.2.num_refs := by
  obtain ⟨t, b, v, _, hfind, rfl⟩ := run_task_shape w w1 i hrun
  intro e he
  rcases mem_update _ _ _ _ he with he | ⟨x, hx, rfl⟩
  · exact h e he
  · have := h (t.token, x) (mem_of_find _ _ _ hx)
    simpa [setResult] using this

theorem positive_step (gen_key : F → P → K) (w w1 : World F P K E) (op : Op F P E)
    (hstep : step gen_key w op = some w1) (h : ∀ e ∈ w.reg.cached, 1 ≤ e.2.num_refs) :
    ∀ e ∈ w1.reg.cached, 1 ≤ e.2.num_refs := by
  cases op with
  | compile f p ex =>
    simp only [step, Option.map_eq_some'] at hstep
    obtain ⟨⟨w3, tok⟩, hc, rfl⟩ := hstep
    obtain ⟨_, hcase⟩ := compile_shape gen_key w f p ex w3 tok hc
    have h1 := positive_compile_section gen_key w f p ex h
    rcases hcase with ⟨_, rfl⟩ | ⟨t, w2, _, hr, hd⟩
    · exact h1
    · obtain ⟨t1, b, _, hrel, _⟩ := destroy_task_shape w2 w3 _ hd
      exact positive_release _ _ _ hrel (positive_run_task _ w2 _ hr h1)
  | compile_section f p ex =>
    simp only [step, Option.some.injEq] at hstep
    subst hstep
    exact positive_compile_section gen_key w f p ex h
  | release i =>
    obtain ⟨k, _, hrel, _⟩ := release_token_shape w w1 i hstep
    exact positive_release _ _ _ hrel h
  | run i => exact positive_run_task w w1 i hstep h
  | destroy i =>
    obtain ⟨t1, b, _, hrel, _⟩ := destroy_task_shape w w1 i hstep
    exact positive_release _ _ _ hrel h
  | attach e =>
    simp only [step, Option.some.injEq] at hstep
    subst hstep
    exact h
  | detach tag =>
    simp only [step, Option.some.injEq] at hstep
    subst hstep
    exact h

theorem Inv_reachable (gen_key : F → P → K) (ops : List (Op F P E)) (w : World F P K E)
    (hrun : runOps gen_key World.init ops = some w) : Inv w :=
  Inv_runOps gen_key ops World.init w hrun Inv_init

/-! ## Reference counting (C2, C3, C4) -/

/-- C2: in every state reachable from the empty registry, `count_refs()` equals the
number of live Tokens, those held by callers plus the one owned by each live Compile
Task; the guarded block of `compile` adds exactly two references on a miss and exactly
one on a hit. -/
theorem count_refs_eq_live_tokens (gen_key : F → P → K) (ops : List (Op F P E))
    (w : World F P K E) (hrun : runOps gen_key World.init ops = some w) :
    count_refs w.reg = w.tokens.length + w.tasks.length
      ∧ (∀ f p ex, find w.reg.cached (gen_key f p) = none →
          count_refs (compile_section gen_key w f p ex).1.reg = count_refs w.reg + 2
          ∧ (compile_section gen_key w f p ex).1.tokens.length = w.tokens.length + 1
          ∧ (compile_section gen_key w f p ex).1.tasks.length = w.tasks.length + 1)
      ∧ (∀ f p ex v, find w.reg.cached (gen_key f p) = some v →
          count_refs (compile_section gen_key w f p ex).1.reg = count_refs w.reg + 1
          ∧ (compile_section gen_key w f p ex).1.tokens.length = w.tokens.length + 1
          ∧ (compile_section gen_key w f p ex).1.tasks.length = w.tasks.length) := by
  have hinv := Inv_reachable gen_key ops w hrun
  refine ⟨hinv.sum, ?_, ?_⟩
  · intro f p ex hfind
    have h1 := (Inv_compile_section gen_key w f p ex hinv).sum
    obtain ⟨_, _, _, h4, h5, _⟩ := compile_section_miss gen_key w f p ex hfind
    have h0 := hinv.sum
    rw [h4, h5] at h1
    rw [h4, h5]
    simp at h1 ⊢
    omega
  · intro f p ex v hfind
    have h1 := (Inv_compile_section gen_key w f p ex hinv).sum
    have h0 := hinv.sum
    rw [compile_section_hit gen_key w f p ex v hfind] at h1 ⊢
    simp at h1 ⊢
    omega

theorem count_refs_eq_live_tokens_witness :
    runOps exampleKey World.init
        [Op.attach 7, Op.compile 1 2 consuming, Op.compile 1 2 consuming]
        = some exampleShared
      ∧ count_refs exampleShared.reg
        = exampleShared.tokens.length + exampleShared.tasks.length :=
  ⟨rfl, (count_refs_eq_live_tokens exampleKey
    [Op.attach 7, Op.compile 1 2 consuming, Op.compile 1 2 consuming]
    exampleShared rfl).1⟩

/-- C3: in every reachable state every Entry of the table has `num_refs >= 1`, whether
or not its artifact is there; every transition (compile hit and miss, release, run)
preserves this from any state; and a release that takes the count of a key from 1 to 0
leaves the key absent from the table. -/
theorem table_refcount_positive (gen_key : F → P → K) (ops : List (Op F P E))
    (w : World F P K E) (hrun : runOps gen_key World.init ops = some w) :
    (∀ e ∈ w.reg.cached, 1 ≤ e.2.num_refs)
      ∧ (∀ k v, find w.reg.cached k = some v → 1 ≤ v.num_refs)
      ∧ (∀ (u u1 : World F P K E) (op : Op F P E), step gen_key u op = some u1 →
          (∀ e ∈ u.reg.cached, 1 ≤ e.2.num_refs) → ∀ e ∈ u1.reg.cached, 1 ≤ e.2.num_refs)
      ∧ (∀ k v r1, find w.reg.cached k = some v → v.num_refs = 1 →
          release w.reg k = some r1 → find r1.cached k = none) := by
  have hinv := Inv_reachable gen_key ops w hrun
  refine ⟨?_, hinv.pos, ?_, ?_⟩
  · intro e he
    exact hinv.pos e.1 e.2 (find_of_mem _ _ _ hinv.nodup he)
  · intro u u1 op hstep hu
    exact positive_step gen_key u u1 op hstep hu
  · intro k v r1 hfind h1 hrel
    obtain ⟨x, hx, _, _, _, hcase⟩ := release_shape w.reg r1 k hrel
    rw [hfind] at hx
    simp only [Option.some.injEq] at hx
    subst hx
    rcases hcase with ⟨_, hc⟩ | ⟨h2, _⟩
    · rw [hc, find_erase _ _ _ hinv.nodup]; simp
    · omega

theorem table_refcount_positive_witness :
    runOps exampleKey World.init
        [Op.attach 7, Op.compile 1 2 consuming, Op.compile 1 2 consuming]
        = some exampleShared
      ∧ ∀ e ∈ exampleShared.reg.cached, 1 ≤ e.2.num_refs :=
  ⟨rfl, (table_refcount_positive exampleKey
    [Op.attach 7, Op.compile 1 2 consuming, Op.compile 1 2 consuming]
    exampleShared rfl).1⟩

/-- C4: in every reachable state, releasing the last Token of an Entry (count 1) removes
exactly that key: `num_cached()` drops by one, the key is absent afterwards and every
other key keeps its Entry; releasing a Token of an Entry with a larger count leaves
`num_cached()` unchanged and the Entry in place; and a `compile` for a key that is
absent (so also after its eviction) takes the miss path: it inserts a new Pending
Entry and creates a new Compile Task. -/
theorem release_evicts_last (gen_key : F → P → K) (ops : List (Op F P E))
    (w : World F P K E) (hrun : runOps gen_key World.init ops = some w)
    (k : K) (v : Value F P) (hfind : find w.reg.cached k = some v) :
    (∃ r1, release w.reg k = some r1
      ∧ (v.num_refs = 1 →
          num_cached r1 + 1 = num_cached w.reg ∧ find r1.cached k = none
          ∧ r1.cached = erase w.reg.cached k
          ∧ (∀ k1, k1 ≠ k → find r1.cached k1 = find w.reg.cached k1)
          ∧ (∀ (u : World F P K E) f p ex, u.reg = r1 → gen_key f p = k →
              find (compile_section gen_key u f p ex).1.reg.cached k
                  = some ⟨2, none, none⟩
                ∧ (compile_section gen_key u f p ex).1.tasks
                  = u.tasks ++ [(⟨f, p, k⟩, false)]
                ∧ (compile_section gen_key u f p ex).1.log.count (Event.task_created k)
                  = u.log.count (Event.task_created k) + 1))
      ∧ (1 < v.num_refs →
          num_cached r1 = num_cached w.reg
          ∧ find r1.cached k = some { v with num_refs := v.num_refs - 1 }
          ∧ (∀ k1, k1 ≠ k → find r1.cached k1 = find w.reg.cached k1))) := by
  have hinv := Inv_reachable gen_key ops w hrun
  obtain ⟨r1, hrel⟩ := release_of_find w.reg k v hfind (hinv.pos k v hfind)
  obtain ⟨x, hx, _, _, _, hcase⟩ := release_shape w.reg r1 k hrel
  rw [hfind] at hx
  simp only [Option.some.injEq] at hx
  subst hx
  refine ⟨r1, hrel, ?_, ?_⟩
  · intro h1
    rcases hcase with ⟨_, hc⟩ | ⟨h2, _⟩
    · have hnone : find r1.cached k = none := by
        rw [hc, find_erase _ _ _ hinv.nodup]; simp
      refine ⟨?_, hnone, hc, ?_, ?_⟩
      · simp only [num_cached, hc]
        exact length_erase _ _ _ hfind
      · intro k1 hk1
        rw [hc, find_erase _ _ _ hinv.nodup]
        rw [if_neg (fun h => hk1 (Eq.symm h))]
      · intro u f p ex hu hk
        subst hk
        have hmiss : find u.reg.cached (gen_key f p) = none := by rw [hu]; exact hnone
        obtain ⟨c1, _, _, _, c5, _⟩ := compile_section_miss gen_key u f p ex hmiss
        refine ⟨?_, c5, ?_⟩
        · rw [c1, find_append_new _ _ _ hmiss]; rfl
        · cases hs : u.reg.executor_stack.getLast? with
          | none =>
            rw [compile_section_miss_unbound gen_key u f p ex hmiss hs]
            simp [List.count_append, List.count_cons]
          | some top =>
            cases hex : ex top.2 with
            | consumed =>
              rw [compile_section_miss_consumed gen_key u f p ex top hmiss hs hex]
              simp [List.count_append, List.count_cons]
            | declined =>
              rw [compile_section_miss_declined gen_key u f p ex top hmiss hs hex]
              simp [List.count_append, List.count_cons]
    · omega
  · intro h1
    rcases hcase with ⟨h2, _⟩ | ⟨_, hc⟩
    · omega
    · refine ⟨?_, ?_, ?_⟩
      · simp only [num_cached, hc, length_update]
      · rw [hc, find_update]; simp [hfind, decRef]
      · intro k1 hk1
        rw [hc, find_update]
        rw [if_neg (fun h => hk1 (Eq.symm h))]

theorem release_evicts_last_witness :
    (runOps exampleKey World.init [Op.compile 1 2 declining] = some exampleReady
      ∧ find exampleReady.reg.cached 12 = some ⟨1, some ⟨1, 2, 0⟩, some ⟨1, 2, 0⟩⟩)
      ∧ ∃ r1, release exampleReady.reg 12 = some r1 ∧ num_cached r1 = 0 :=
  ⟨⟨rfl, rfl⟩,
    match release_evicts_last exampleKey [Op.compile 1 2 declining] exampleReady rfl 12
        ⟨1, some ⟨1, 2, 0⟩, some ⟨1, 2, 0⟩⟩ rfl with
    | ⟨r1, h1, h2, _⟩ => ⟨r1, h1, by have := (h2 rfl).1; simp [num_cached, exampleReady] at this ⊢; exact this⟩⟩

/-! ## Sequences of transitions -/

/-- A property that every transition carries over, as long as a side condition `R`
holds in the worlds visited, holds in all worlds visited. -/
theorem trace_invariant (gen_key : F → P → K) (Q R : World F P K E → Prop)
    (hpres : ∀ u op u1, Q u → R u → step gen_key u op = some u1 → R u1 → Q u1)
    (ops : List (Op F P E)) (w : World F P K E) (hw : Q w)
    (hR : ∀ u ∈ trace gen_key w ops, R u) : ∀ u ∈ trace gen_key w ops, Q u := by
  induction ops generalizing w with
  | nil =>
    intro u hu
    simp only [trace, List.mem_singleton] at hu
    subst hu; exact hw
  | cons op ops ih =>
    intro u hu
    simp only [trace, List.mem_cons] at hu hR
    rcases hu with hu | hu
    · subst hu; exact hw
    · cases hs : step gen_key w op with
      | none => simp [hs] at hu
      | some w1 =>
        simp only [hs] at hu hR
        have hR1 : ∀ u ∈ trace gen_key w1 ops, R u := fun u hu => hR u (Or.inr hu)
        have hw1mem : w1 ∈ trace gen_key w1 ops := by
          cases ops <;> simp [trace]
        exact ih w1 (hpres w op w1 hw (hR w (Or.inl rfl)) hs (hR1 w1 hw1mem)) hR1 u hu

/-- The events a transition appends: a task is created only for a key that is absent
from the table. -/
theorem step_log (gen_key : F → P → K) (u u1 : World F P K E) (op : Op F P E)
    (hstep : step gen_key u op = some u1) :
    ∃ evs, u1.log = u.log ++ evs
      ∧ ∀ k, Event.task_created k ∈ evs → find u.reg.cached k = none := by
  cases op with
  | compile f p ex =>
    simp only [step, Option.map_eq_some'] at hstep
    obtain ⟨⟨w3, tok⟩, hc, rfl⟩ := hstep
    cases hfind : find u.reg.cached (gen_key f p) with
    | some v =>
      rw [compile_hit gen_key u f p ex v hfind] at hc
      simp only [Option.some.injEq, Prod.mk.injEq] at hc
      obtain ⟨rfl, _⟩ := hc
      exact ⟨_, rfl, by simp⟩
    | none =>
      cases hs : u.reg.executor_stack.getLast? with
      | none =>
        rw [compile_miss_unbound gen_key u f p ex hfind hs] at hc
        simp only [Option.some.injEq, Prod.mk.injEq] at hc
        obtain ⟨rfl, _⟩ := hc
        exact ⟨_, rfl, by intro k hk; simp at hk; rw [hk]; exact hfind⟩
      | some top =>
        cases hex : ex top.2 with
        | consumed =>
          rw [compile_miss_consumed gen_key u f p ex top hfind hs hex] at hc
          simp only [Option.some.injEq, Prod.mk.injEq] at hc
          obtain ⟨rfl, _⟩ := hc
          exact ⟨_, rfl, by intro k hk; simp at hk; rw [hk]; exact hfind⟩
        | declined =>
          rw [compile_miss_declined gen_key u f p ex top hfind hs hex] at hc
          simp only [Option.some.injEq, Prod.mk.injEq] at hc
          obtain ⟨rfl, _⟩ := hc
          exact ⟨_, rfl, by intro k hk; simp at hk; rw [hk]; exact hfind⟩
  | compile_section f p ex =>
    simp only [step, Option.some.injEq] at hstep
    subst hstep
    cases hfind : find u.reg.cached (gen_key f p) with
    | some v =>
      rw [compile_section_hit gen_key u f p ex v hfind]
      exact ⟨_, rfl, by simp⟩
    | none =>
      cases hs : u.reg.executor_stack.getLast? with
      | none =>
        rw [compile_section_miss_unbound gen_key u f p ex hfind hs]
        exact ⟨_, rfl, by intro k hk; simp at hk; rw [hk]; exact hfind⟩
      | some top =>
        cases hex : ex top.2 with
        | consumed =>
          rw [compile_section_miss_consumed gen_key u f p ex top hfind hs hex]
          exact ⟨_, rfl, by intro k hk; simp at hk; rw [hk]; exact hfind⟩
        | declined =>
          rw [compile_section_miss_declined gen_key u f p ex top hfind hs hex]
          exact ⟨_, rfl, by intro k hk; simp at hk; rw [hk]; exact hfind⟩
  | release i =>
    obtain ⟨k, _, _, _, _, hl⟩ := release_token_shape u u1 i hstep
    exact ⟨_, hl, by simp⟩
  | run i =>
    obtain ⟨t, b, v, _, _, rfl⟩ := run_task_shape u u1 i hstep
    exact ⟨_, rfl, by simp⟩
  | destroy i =>
    obtain ⟨t, b, _, _, _, _, hl⟩ := destroy_task_shape u u1 i hstep
    exact ⟨_, hl, by simp⟩
  | attach e =>
    simp only [step, Option.some.injEq] at hstep
    subst hstep
    exact ⟨_, rfl, by simp⟩
  | detach tag =>
    simp only [step, Option.some.injEq] at hstep
    subst hstep
    exact ⟨_, rfl, by simp⟩

theorem created_count_step (gen_key : F → P → K) (u u1 : World F P K E) (op : Op F P E)
    (k : K) (hstep : step gen_key u op = some u1) (hk : find u.reg.cached k ≠ none) :
    u1.log.count (Event.task_created k) = u.log.count (Event.task_created k) := by
  obtain ⟨evs, hl, hev⟩ := step_log gen_key u u1 op hstep
  have : evs.count (Event.task_created k) = 0 :=
    List.count_eq_zero.mpr (fun hmem => hk (hev k hmem))
  rw [hl, List.count_append, this]; rfl

/-- The key of a `compile` call is in the table when the call returns. -/
theorem compile_present (gen_key : F → P → K) (w w1 : World F P K E) (f : F) (p : P)
    (ex : E → Outcome) (tok : K) (h : compile gen_key w f p ex = some (w1, tok)) :
    ∃ v, find w1.reg.cached (gen_key f p) = some v := by
  cases hfind : find w.reg.cached (gen_key f p) with
  | some v =>
    rw [compile_hit gen_key w f p ex v hfind] at h
    simp only [Option.some.injEq, Prod.mk.injEq] at h
    obtain ⟨rfl, _⟩ := h
    exact ⟨incRef v, by simp [find_update, hfind]⟩
  | none =>
    cases hs : w.reg.executor_stack.getLast? with
    | none =>
      rw [compile_miss_unbound gen_key w f p ex hfind hs] at h
      simp only [Option.some.injEq, Prod.mk.injEq] at h
      obtain ⟨rfl, _⟩ := h
      exact ⟨_, find_append_new _ _ _ hfind⟩
    | some top =>
      cases hex : ex top.2 with
      | consumed =>
        rw [compile_miss_consumed gen_key w f p ex top hfind hs hex] at h
        simp only [Option.some.injEq, Prod.mk.injEq] at h
        obtain ⟨rfl, _⟩ := h
        exact ⟨_, find_append_new _ _ _ hfind⟩
      | declined =>
        rw [compile_miss_declined gen_key w f p ex top hfind hs hex] at h
        simp only [Option.some.injEq, Prod.mk.injEq] at h
        obtain ⟨rfl, _⟩ := h
        exact ⟨_, find_append_new _ _ _ hfind⟩

/-! ## Coalescing (C1) -/

/-- C1: a `compile` on a key that is in the table creates no Compile Task, submits
nothing and calls no backend: the live tasks are unchanged, the only events are the
acquisition and the release of the lock, the count of that Entry grows by exactly one,
every other Entry is unchanged and the Token returned is for that key.  Over any
sequence of transitions during which a key stays in the table no Compile Task is
created for it, while the miss that inserts the key creates exactly one: one task per
lifetime of an Entry.  A second `compile` with the same arguments, issued after the
first has returned, is such a hit. -/
theorem compile_hit_coalesces (gen_key : F → P → K) (w : World F P K E) (f : F) (p : P)
    (ex : E → Outcome) :
    (∀ v, find w.reg.cached (gen_key f p) = some v →
        compile gen_key w f p ex
          = some ({ reg := { w.reg with
                             cached := update w.reg.cached (gen_key f p) incRef },
                    tokens := w.tokens ++ [gen_key f p],
                    tasks := w.tasks,
                    log := w.log ++ [Event.lock, Event.unlock] }, gen_key f p)
        ∧ find (update w.reg.cached (gen_key f p) incRef) (gen_key f p)
            = some { v with num_refs := v.num_refs + 1 }
        ∧ (∀ k, k ≠ gen_key f p →
            find (update w.reg.cached (gen_key f p) incRef) k = find w.reg.cached k))
      ∧ (∀ (k : K) (ops : List (Op F P E)),
          (∀ u ∈ trace gen_key w ops, find u.reg.cached k ≠ none) →
          ∀ u ∈ trace gen_key w ops,
            u.log.count (Event.task_created k) = w.log.count (Event.task_created k))
      ∧ (find w.reg.cached (gen_key f p) = none →
          ∀ ops : List (Op F P E),
            (∀ u ∈ trace gen_key (compile_section gen_key w f p ex).1 ops,
              find u.reg.cached (gen_key f p) ≠ none) →
            ∀ u ∈ trace gen_key (compile_section gen_key w f p ex).1 ops,
              u.log.count (Event.task_created (gen_key f p))
                = w.log.count (Event.task_created (gen_key f p)) + 1)
      ∧ (∀ (w1 : World F P K E) (tok : K) (ex2 : E → Outcome),
          compile gen_key w f p ex = some (w1, tok) →
          ∃ w2, compile gen_key w1 f p ex2 = some (w2, tok)
            ∧ w2.tasks = w1.tasks
            ∧ w2.log = w1.log ++ [Event.lock, Event.unlock]
            ∧ refsAt w2.reg.cached tok = refsAt w1.reg.cached tok + 1) := by
  have hB : ∀ (w0 : World F P K E) (k : K) (ops : List (Op F P E)),
      (∀ u ∈ trace gen_key w0 ops, find u.reg.cached k ≠ none) →
      ∀ u ∈ trace gen_key w0 ops,
        u.log.count (Event.task_created k) = w0.log.count (Event.task_created k) := by
    intro w0 k ops hR
    refine trace_invariant gen_key
      (fun u => u.log.count (Event.task_created k) = w0.log.count (Event.task_created k))
      (fun u => find u.reg.cached k ≠ none) ?_ ops w0 rfl hR
    intro u op u1 hq hr hstep _
    rw [created_count_step gen_key u u1 op k hstep hr]; exact hq
  refine ⟨?_, hB w, ?_, ?_⟩
  rotate_left
  · intro hmiss ops hR u hu
    rw [hB _ _ ops hR u hu]
    cases hs : w.reg.executor_stack.getLast? with
    | none =>
      rw [compile_section_miss_unbound gen_key w f p ex hmiss hs]
      simp [List.count_append, List.count_cons]
    | some top =>
      cases hex : ex top.2 with
      | consumed =>
        rw [compile_section_miss_consumed gen_key w f p ex top hmiss hs hex]
        simp [List.count_append, List.count_cons]
      | declined =>
        rw [compile_section_miss_declined gen_key w f p ex top hmiss hs hex]
        simp [List.count_append, List.count_cons]
  · intro w1 tok ex2 hc
    obtain ⟨v, hv⟩ := compile_present gen_key w w1 f p ex tok hc
    obtain ⟨w0, hw0⟩ := compile_total gen_key w f p ex
    rw [hw0] at hc
    simp only [Option.some.injEq, Prod.mk.injEq] at hc
    obtain ⟨_, rfl⟩ := hc
    refine ⟨_, compile_hit gen_key w1 f p ex2 v hv, rfl, rfl, ?_⟩
    simp [refsAt, find_update, hv, incRef]
  · intro v hfind
    refine ⟨compile_hit gen_key w f p ex v hfind, ?_, ?_⟩
    · rw [find_update]; simp [hfind, incRef]
    · intro k hk
      rw [find_update, if_neg (fun h => hk (Eq.symm h))]

theorem compile_hit_coalesces_witness :
    find exampleShared.reg.cached (exampleKey 1 2) = some ⟨3, none, none⟩
      ∧ compile exampleKey exampleShared 1 2 consuming
        = some ({ reg := { cached := [(12, ⟨4, none, none⟩)], executor_tag := 1,
                           executor_stack := [(1, 7)] },
                  tokens := [12, 12, 12],
                  tasks := [(⟨1, 2, 12⟩, false)],
                  log := [Event.lock, Event.unlock, Event.lock, Event.task_created 12,
                          Event.execute 1 12, Event.unlock, Event.lock, Event.unlock,
                          Event.lock, Event.unlock] }, 12) :=
  ⟨rfl, ((compile_hit_coalesces exampleKey exampleShared 1 2 consuming).1
    ⟨3, none, none⟩ rfl).1⟩

/-! ## Synchronous and asynchronous dispatch (C5) -/

theorem numPending_append_single (m : List (K × Value F P)) (k : K) (v : Value F P) :
    numPending (m ++ [(k, v)])
      = numPending m + (if v.compiled_function.isNone then 1 else 0) := by
  simp [numPending, List.countP_append, List.countP_cons]

/-- C5: on a miss `compile` returns, and it has itself run the Compile Task (called the
backend) exactly when the executor stack is empty or the top binding handed the task
back.  In those cases the Entry is Ready on return (artifact stored and published,
`count_pending()` as before the call, no task left); when the top binding consumed the
task, `compile` returns with the Entry Pending (`count_pending()` one larger) and the
task queued, and the Entry becomes Ready once the executor runs that task. -/
theorem compile_dispatch (gen_key : F → P → K) (w : World F P K E) (f : F) (p : P)
    (ex : E → Outcome) (hmiss : find w.reg.cached (gen_key f p) = none) :
    ∃ w1, compile gen_key w f p ex = some (w1, gen_key f p)
      ∧ (Event.backend (gen_key f p) ∈ w1.log.drop w.log.length
          ↔ (w.reg.executor_stack.getLast? = none
              ∨ ∃ top, w.reg.executor_stack.getLast? = some top
                  ∧ ex top.2 = Outcome.declined))
      ∧ ((w.reg.executor_stack.getLast? = none
              ∨ ∃ top, w.reg.executor_stack.getLast? = some top
                  ∧ ex top.2 = Outcome.declined) →
          find w1.reg.cached (gen_key f p)
              = some ⟨1, some ⟨f, p, backendCalls w.log⟩, some ⟨f, p, backendCalls w.log⟩⟩
            ∧ count_pending w1.reg = count_pending w.reg
            ∧ w1.tasks = w.tasks)
      ∧ (∀ top, w.reg.executor_stack.getLast? = some top → ex top.2 = Outcome.consumed →
          find w1.reg.cached (gen_key f p) = some ⟨2, none, none⟩
            ∧ count_pending w1.reg = count_pending w.reg + 1
            ∧ w1.tasks = w.tasks ++ [(⟨f, p, gen_key f p⟩, false)]
            ∧ w1.log = w.log ++ [Event.lock, Event.task_created (gen_key f p),
                                 Event.execute top.1 (gen_key f p), Event.unlock]
            ∧ ∃ w2, run_task w1 w.tasks.length = some w2
                ∧ find w2.reg.cached (gen_key f p)
                    = some ⟨2, some ⟨f, p, backendCalls w.log⟩,
                               some ⟨f, p, backendCalls w.log⟩⟩) := by
  cases hs : w.reg.executor_stack.getLast? with
  | none =>
    refine ⟨_, compile_miss_unbound gen_key w f p ex hmiss hs, ?_, ?_, ?_⟩
    · simp
    · intro _
      refine ⟨find_append_new _ _ _ hmiss, ?_, rfl⟩
      simp [count_pending_eq, numPending_append_single]
    · intro top htop; simp at htop
  | some top =>
    cases hex : ex top.2 with
    | consumed =>
      refine ⟨_, compile_miss_consumed gen_key w f p ex top hmiss hs hex, ?_, ?_, ?_⟩
      · simp [hex]
      · intro h
        rcases h with h | ⟨t, h1, h2⟩
        · simp at h
        · simp only [Option.some.injEq] at h1
          subst h1
          rw [hex] at h2
          exact absurd h2 (by decide)
      · intro t ht _
        simp only [Option.some.injEq] at ht
        subst ht
        refine ⟨?_, ?_, rfl, rfl, ?_⟩
        · simp only [find_append_new _ _ _ hmiss]; rfl
        · simp [count_pending_eq, numPending_append_single, incRef, Value.ctor]
        · refine ⟨_, run_task_of_find _ w.tasks.length ⟨f, p, gen_key f p⟩ false
            (incRef Value.ctor) (by simp) (find_append_new _ _ _ hmiss), ?_⟩
          simp only [update_append_single _ _ _ _ hmiss, find_append_new _ _ _ hmiss]
          simp [setResult, incRef, Value.ctor, backendCalls]
    | declined =>
      refine ⟨_, compile_miss_declined gen_key w f p ex top hmiss hs hex, ?_, ?_, ?_⟩
      · simp [hex]
      · intro _
        refine ⟨find_append_new _ _ _ hmiss, ?_, rfl⟩
        simp [count_pending_eq, numPending_append_single]
      · intro t ht hc
        simp only [Option.some.injEq] at ht
        subst ht
        rw [hex] at hc
        exact absurd hc (by decide)

theorem compile_dispatch_witness :
    find (World.init : World Nat Nat Nat Nat).reg.cached (exampleKey 1 2) = none
      ∧ ∃ w1, compile exampleKey (World.init : World Nat Nat Nat Nat) 1 2 declining
            = some (w1, exampleKey 1 2)
          ∧ find w1.reg.cached (exampleKey 1 2)
              = some ⟨1, some ⟨1, 2, 0⟩, some ⟨1, 2, 0⟩⟩ :=
  ⟨rfl,
    match compile_dispatch exampleKey (World.init : World Nat Nat Nat Nat) 1 2 declining
        rfl with
    | ⟨w1, h1, _, h3, _⟩ => ⟨w1, h1, (h3 (Or.inl rfl)).1⟩⟩

/-! ## Pending Entries (C8, C9) -/

/-- C8 (as stated, refuted): after `attach_executor(7)`, an asynchronous `compile(1, 2)`
and the release of the Token of the caller, the task is queued and has not run, its
Entry is Pending, and the count of the Entry is 1, not 2. -/
theorem pending_refcount_counterexample :
    runOps exampleKey World.init
        [Op.attach 7, Op.compile 1 2 consuming, Op.release 0] = some exampleDropped
      ∧ (⟨1, 2, 12⟩, false) ∈ exampleDropped.tasks
      ∧ find exampleDropped.reg.cached 12 = some ⟨1, none, none⟩
      ∧ ¬ 2 ≤ refsAt exampleDropped.reg.cached 12 := by
  refine ⟨rfl, ?_, rfl, ?_⟩
  · simp [exampleDropped]
  · decide

/-- C8 (amended): in every reachable state the Entry of a live Compile Task is in the
table and its count is exactly one (the reference of the task) plus the number of
caller Tokens on it; so it is at least 1, at least 2 while some caller Token on it is
alive, and the Entry is Pending as long as the task has not run. -/
theorem pending_refcount (gen_key : F → P → K) (ops : List (Op F P E))
    (w : World F P K E) (hrun : runOps gen_key World.init ops = some w)
    (t : CompileTask F P K) (b : Bool) (ht : (t, b) ∈ w.tasks) :
    ∃ v, find w.reg.cached t.token = some v
      ∧ v.num_refs = 1 + w.tokens.count t.token
      ∧ 1 ≤ v.num_refs
      ∧ (t.token ∈ w.tokens → 2 ≤ v.num_refs)
      ∧ (b = false → v.compiled_function = none) := by
  have hinv := Inv_reachable gen_key ops w hrun
  have hmem : t.token ∈ taskKeys w := List.mem_map.mpr ⟨(t, b), ht, rfl⟩
  have hone : (taskKeys w).count t.token = 1 :=
    List.count_eq_one_of_mem hinv.taskNodup hmem
  have hrefs := hinv.refs t.token
  rw [hone] at hrefs
  cases hfind : find w.reg.cached t.token with
  | none => simp [refsAt, hfind] at hrefs
  | some v =>
    simp only [refsAt, hfind] at hrefs
    refine ⟨v, rfl, by omega, by omega, ?_, ?_⟩
    · intro htok
      have := List.count_pos_iff.mpr htok
      omega
    · intro hb
      subst hb
      obtain ⟨x, hx1, hx2⟩ := hinv.pending t ht
      rw [hfind] at hx1
      simp only [Option.some.injEq] at hx1
      subst hx1
      exact hx2

theorem pending_refcount_witness :
    (runOps exampleKey World.init
        [Op.attach 7, Op.compile 1 2 consuming, Op.compile 1 2 consuming]
        = some exampleShared
      ∧ ((⟨1, 2, 12⟩ : CompileTask Nat Nat Nat), false) ∈ exampleShared.tasks)
      ∧ ∃ v, find exampleShared.reg.cached 12 = some v
          ∧ v.num_refs = 1 + exampleShared.tokens.count 12 :=
  ⟨⟨rfl, by simp [exampleShared]⟩,
    match pending_refcount exampleKey
        [Op.attach 7, Op.compile 1 2 consuming, Op.compile 1 2 consuming]
        exampleShared rfl ⟨1, 2, 12⟩ false (by simp [exampleShared]) with
    | ⟨v, h1, h2, _⟩ => ⟨v, h1, h2⟩⟩

/-- Only `attach_executor` and `detach_executor` touch the stack and the tag counter. -/
theorem step_stack (gen_key : F → P → K) (u u1 : World F P K E) (op : Op F P E)
    (hstep : step gen_key u op = some u1) :
    (∃ e, op = Op.attach e ∧ u1.reg = (attach_executor u.reg e).1)
      ∨ (∃ tag, op = Op.detach tag ∧ u1.reg = detach_executor u.reg tag)
      ∨ ((∀ e, op ≠ Op.attach e) ∧ (∀ tag, op ≠ Op.detach tag)
          ∧ u1.reg.executor_tag = u.reg.executor_tag
          ∧ u1.reg.executor_stack = u.reg.executor_stack) := by
  have hsec : ∀ f p ex,
      (compile_section gen_key u f p ex).1.reg.executor_tag = u.reg.executor_tag
      ∧ (compile_section gen_key u f p ex).1.reg.executor_stack
          = u.reg.executor_stack := by
    intro f p ex
    cases hfind : find u.reg.cached (gen_key f p) with
    | some v => rw [compile_section_hit gen_key u f p ex v hfind]; exact ⟨rfl, rfl⟩
    | none =>
      obtain ⟨_, h2, h3, _⟩ := compile_section_miss gen_key u f p ex hfind
      exact ⟨h2, h3⟩
  cases op with
  | compile f p ex =>
    refine Or.inr (Or.inr ⟨(by intro e h; cases h), (by intro t h; cases h), ?_⟩)
    simp only [step, Option.map_eq_some'] at hstep
    obtain ⟨⟨w3, tok⟩, hc, rfl⟩ := hstep
    obtain ⟨_, hcase⟩ := compile_shape gen_key u f p ex w3 tok hc
    rcases hcase with ⟨_, rfl⟩ | ⟨t, w2, _, hr, hd⟩
    · exact hsec f p ex
    · obtain ⟨t0, b0, v, _, _, rfl⟩ := run_task_shape _ w2 _ hr
      obtain ⟨t1, b, _, hrel, _⟩ := destroy_task_shape _ w3 _ hd
      obtain ⟨x, _, _, h3, h4, _⟩ := release_shape _ _ _ hrel
      exact ⟨by rw [h3]; exact (hsec f p ex).1, by rw [h4]; exact (hsec f p ex).2⟩
  | compile_section f p ex =>
    refine Or.inr (Or.inr ⟨(by intro e h; cases h), (by intro t h; cases h), ?_⟩)
    simp only [step, Option.some.injEq] at hstep
    subst hstep
    exact hsec f p ex
  | release i =>
    refine Or.inr (Or.inr ⟨(by intro e h; cases h), (by intro t h; cases h), ?_⟩)
    obtain ⟨k, _, hrel, _⟩ := release_token_shape u u1 i hstep
    obtain ⟨x, _, _, h3, h4, _⟩ := release_shape _ _ _ hrel
    exact ⟨h3, h4⟩
  | run i =>
    refine Or.inr (Or.inr ⟨(by intro e h; cases h), (by intro t h; cases h), ?_⟩)
    obtain ⟨t0, b0, v, _, _, rfl⟩ := run_task_shape _ u1 _ hstep
    exact ⟨rfl, rfl⟩
  | destroy i =>
    refine Or.inr (Or.inr ⟨(by intro e h; cases h), (by intro t h; cases h), ?_⟩)
    obtain ⟨t1, b, _, hrel, _⟩ := destroy_task_shape u u1 i hstep
    obtain ⟨x, _, _, h3, h4, _⟩ := release_shape _ _ _ hrel
    exact ⟨h3, h4⟩
  | attach e =>
    simp only [step, Option.some.injEq] at hstep
    subst hstep
    exact Or.inl ⟨e, rfl, rfl⟩
  | detach tag =>
    simp only [step, Option.some.injEq] at hstep
    subst hstep
    exact Or.inr (Or.inl ⟨tag, rfl, rfl⟩)

/-- The tag counter never decreases. -/
theorem tag_mono (gen_key : F → P → K) (ops : List (Op F P E)) (w w1 : World F P K E)
    (hrun : runOps gen_key w ops = some w1) :
    w.reg.executor_tag ≤ w1.reg.executor_tag := by
  induction ops generalizing w with
  | nil =>
    simp only [runOps, Option.some.injEq] at hrun
    subst hrun; exact Nat.le_refl _
  | cons op ops ih =>
    simp only [runOps] at hrun
    cases hs : step gen_key w op with
    | none => simp [hs] at hrun
    | some w2 =>
      simp only [hs] at hrun
      have h2 := ih w2 hrun
      rcases step_stack gen_key w w2 op hs with ⟨e, _, h⟩ | ⟨tag, _, h⟩ | ⟨_, _, h, _⟩
      · rw [h] at h2; simp only [attach_executor] at h2; omega
      · rw [h] at h2; simp only [detach_executor] at h2; omega
      · omega

/-- The tags in the stack increase strictly from bottom to top and none exceeds the
tag counter. -/
theorem stack_sorted (gen_key : F → P → K) (ops : List (Op F P E)) (w w1 : World F P K E)
    (hrun : runOps gen_key w ops = some w1)
    (hw : (w.reg.executor_stack.map Prod.fst).Pairwise (· < ·)
      ∧ ∀ t ∈ w.reg.executor_stack.map Prod.fst, t ≤ w.reg.executor_tag) :
    (w1.reg.executor_stack.map Prod.fst).Pairwise (· < ·)
      ∧ ∀ t ∈ w1.reg.executor_stack.map Prod.fst, t ≤ w1.reg.executor_tag := by
  induction ops generalizing w with
  | nil =>
    simp only [runOps, Option.some.injEq] at hrun
    subst hrun; exact hw
  | cons op ops ih =>
    simp only [runOps] at hrun
    cases hs : step gen_key w op with
    | none => simp [hs] at hrun
    | some w2 =>
      simp only [hs] at hrun
      refine ih w2 hrun ?_
      rcases step_stack gen_key w w2 op hs with ⟨e, _, h⟩ | ⟨tag, _, h⟩ | ⟨_, _, h3, h4⟩
      · rw [h]
        simp only [attach_executor, List.map_append, List.map_cons, List.map_nil]
        constructor
        · rw [List.pairwise_append]
          refine ⟨hw.1, by simp, ?_⟩
          intro a ha b hb
          simp only [List.mem_singleton] at hb
          have := hw.2 a ha
          omega
        · intro t ht
          rcases List.mem_append.mp ht with ht | ht
          · have := hw.2 t ht; omega
          · simp only [List.mem_singleton] at ht; omega
      · rw [h]
        simp only [detach_executor]
        constructor
        · exact List.Pairwise.sublist (List.Sublist.map _ (List.filter_sublist _)) hw.1
        · intro t ht
          exact hw.2 t ((List.Sublist.map _ (List.filter_sublist _)).subset ht)
      · rw [h3, h4]; exact hw

/-- C7: in every reachable state a call of `attach_executor` returns a tag that is
strictly greater than the tag of every binding in the stack, and after any further
sequence of transitions a later call of `attach_executor` returns a strictly greater
tag than this one; the tags in the stack increase strictly from bottom to top, so they
are pairwise distinct. -/
theorem attach_tags_increase (gen_key : F → P → K) (ops : List (Op F P E))
    (w : World F P K E) (hrun : runOps gen_key World.init ops = some w) :
    (∀ (e e2 : E) (ops2 : List (Op F P E)) (w2 : World F P K E),
        runOps gen_key w (Op.attach e :: ops2) = some w2 →
        (attach_executor w.reg e).2 < (attach_executor w2.reg e2).2)
      ∧ (∀ (e : E), ∀ b ∈ w.reg.executor_stack, b.1 < (attach_executor w.reg e).2)
      ∧ (w.reg.executor_stack.map Prod.fst).Pairwise (· < ·)
      ∧ (w.reg.executor_stack.map Prod.fst).Nodup := by
  have hs := stack_sorted gen_key ops World.init w hrun
    ⟨by simp [World.init, Registry.init], by simp [World.init, Registry.init]⟩
  refine ⟨?_, ?_, hs.1, ?_⟩
  · intro e e2 ops2 w2 h2
    simp only [runOps, step] at h2
    have := tag_mono gen_key ops2 _ w2 h2
    simp only [attach, attach_executor] at this ⊢
    omega
  · intro e b hb
    have := hs.2 b.1 (List.mem_map.mpr ⟨b, hb, rfl⟩)
    simp only [attach_executor]
    omega
  · exact hs.1.imp (fun h => Nat.ne_of_lt h)

theorem attach_tags_increase_witness :
    runOps exampleKey World.init
        [Op.attach 7, Op.compile 1 2 consuming, Op.compile 1 2 consuming]
        = some exampleShared
      ∧ (exampleShared.reg.executor_stack.map Prod.fst).Nodup :=
  ⟨rfl, (attach_tags_increase exampleKey
    [Op.attach 7, Op.compile 1 2 consuming, Op.compile 1 2 consuming]
    exampleShared rfl).2.2.2⟩

theorem detachedBy_cons_attach (tag : Nat) (e : E) (ops : List (Op F P E)) :
    detachedBy tag (Op.attach e :: ops) = detachedBy tag ops := by
  simp [detachedBy]

theorem detachedBy_cons_detach (tag t : Nat) (ops : List (Op F P E)) :
    detachedBy tag (Op.detach t :: ops) = (decide (t = tag) || detachedBy tag ops) := by
  simp [detachedBy]

theorem detachedBy_cons_other (tag : Nat) (op : Op F P E) (ops : List (Op F P E))
    (h2 : ∀ t, op ≠ Op.detach t) : detachedBy tag (op :: ops) = detachedBy tag ops := by
  cases op with
  | detach t => exact absurd rfl (h2 t)
  | _ => simp [detachedBy]

theorem attachedNotDetached_cons_other (n : Nat) (op : Op F P E) (ops : List (Op F P E))
    (h1 : ∀ e, op ≠ Op.attach e) :
    attachedNotDetached n (op :: ops) = attachedNotDetached n ops := by
  cases op with
  | attach e => exact absurd rfl (h1 e)
  | _ => simp [attachedNotDetached]

/-- The stack after a sequence of transitions: the earlier bindings that the sequence
does not detach, followed by the bindings the sequence attaches and does not detach. -/
theorem stack_runOps (gen_key : F → P → K) (ops : List (Op F P E)) (w w1 : World F P K E)
    (hrun : runOps gen_key w ops = some w1) :
    w1.reg.executor_stack
      = w.reg.executor_stack.filter (fun b => !(detachedBy b.1 ops))
        ++ attachedNotDetached w.reg.executor_tag ops := by
  induction ops generalizing w with
  | nil =>
    simp only [runOps, Option.some.injEq] at hrun
    subst hrun
    simp [detachedBy, attachedNotDetached]
  | cons op ops ih =>
    simp only [runOps] at hrun
    cases hs : step gen_key w op with
    | none => simp [hs] at hrun
    | some w2 =>
      simp only [hs] at hrun
      rw [ih w2 hrun]
      rcases step_stack gen_key w w2 op hs with
        ⟨e, rfl, h⟩ | ⟨tag, rfl, h⟩ | ⟨h1, h2, h3, h4⟩
      · rw [h]
        simp only [attach_executor, List.filter_append, detachedBy_cons_attach,
          attachedNotDetached]
        by_cases hd : detachedBy (w.reg.executor_tag + 1) ops = true
        · simp [List.filter, hd]
        · simp [List.filter, hd]
      · rw [h]
        simp only [detach_executor, List.filter_filter, detachedBy_cons_detach,
          attachedNotDetached]
        congr 1
        apply List.filter_congr
        intro b _
        by_cases hb : b.1 = tag
        · simp [hb]
        · have hb2 : ¬ tag = b.1 := fun h => hb (Eq.symm h)
          simp [hb, hb2]
      · rw [h3, h4, attachedNotDetached_cons_other _ _ _ h1]
        congr 1
        apply List.filter_congr
        intro b _
        rw [detachedBy_cons_other _ _ _ h2]

theorem filter_tag_split {α : Type} (l1 l2 : List (Nat × α)) (b : Nat × α)
    (hn : ((l1 ++ b :: l2).map Prod.fst).Nodup) :
    (l1 ++ b :: l2).filter (fun a => !(decide (a.1 = b.1))) = l1 ++ l2 := by
  simp only [List.map_append, List.map_cons] at hn
  have hn2 := List.nodup_middle.mp hn
  simp only [List.nodup_cons, List.mem_append, List.mem_map] at hn2
  have h1 : l1.filter (fun a => !(decide (a.1 = b.1))) = l1 := by
    rw [List.filter_eq_self]
    intro a ha
    have : a.1 ≠ b.1 := fun h => hn2.1 (Or.inl ⟨a, ha, h⟩)
    simp [this]
  have h2 : l2.filter (fun a => !(decide (a.1 = b.1))) = l2 := by
    rw [List.filter_eq_self]
    intro a ha
    have : a.1 ≠ b.1 := fun h => hn2.1 (Or.inr ⟨a, ha, h⟩)
    simp [this]
  simp [List.filter_append, List.filter_cons, h1, h2]

theorem stack_tags_nodup (gen_key : F → P → K) (ops : List (Op F P E))
    (w : World F P K E) (hrun : runOps gen_key World.init ops = some w) :
    (w.reg.executor_stack.map Prod.fst).Nodup :=
  (stack_sorted gen_key ops World.init w hrun
    ⟨by simp [World.init, Registry.init], by simp [World.init, Registry.init]⟩).1.imp
    (fun h => Nat.ne_of_lt h)

/-- C6: for every stack and tag, `detach_executor(tag)` keeps, in their order, exactly
the bindings whose tag differs from the argument and touches nothing else; when the
tags of the stack are pairwise distinct, as they are in every reachable state, the
binding carrying the tag is removed wherever it sits and `num_bound()` drops by
exactly one, and when no binding carries the tag nothing changes.  After any sequence
of transitions from the empty registry the stack consists of the attached bindings
whose tag has not been detached, and `num_bound()` is their number. -/
theorem detach_removes_matching (gen_key : F → P → K) (ops : List (Op F P E))
    (w : World F P K E) (hrun : runOps gen_key World.init ops = some w) :
    (∀ (r : Registry F P K E) (tag : Nat),
        (detach_executor r tag).executor_stack.Sublist r.executor_stack
        ∧ (∀ b, b ∈ (detach_executor r tag).executor_stack
              ↔ b ∈ r.executor_stack ∧ b.1 ≠ tag)
        ∧ (detach_executor r tag).cached = r.cached
        ∧ (detach_executor r tag).executor_tag = r.executor_tag
        ∧ (tag ∉ r.executor_stack.map Prod.fst →
            (detach_executor r tag).executor_stack = r.executor_stack
            ∧ num_bound (detach_executor r tag) = num_bound r)
        ∧ ((r.executor_stack.map Prod.fst).Nodup →
            ∀ i b, r.executor_stack[i]? = some b → b.1 = tag →
              (detach_executor r tag).executor_stack = r.executor_stack.eraseIdx i
              ∧ num_bound (detach_executor r tag) + 1 = num_bound r))
      ∧ (∀ tag, tag ∈ w.reg.executor_stack.map Prod.fst →
          num_bound (detach_executor w.reg tag) + 1 = num_bound w.reg)
      ∧ (∀ tag, tag ∉ w.reg.executor_stack.map Prod.fst →
          num_bound (detach_executor w.reg tag) = num_bound w.reg)
      ∧ w.reg.executor_stack = attachedNotDetached 0 ops
      ∧ num_bound w.reg = (attachedNotDetached 0 ops).length := by
  have hgen : ∀ (r : Registry F P K E) (tag : Nat),
      (tag ∉ r.executor_stack.map Prod.fst →
          (detach_executor r tag).executor_stack = r.executor_stack
          ∧ num_bound (detach_executor r tag) = num_bound r)
      ∧ ((r.executor_stack.map Prod.fst).Nodup →
          ∀ i b, r.executor_stack[i]? = some b → b.1 = tag →
            (detach_executor r tag).executor_stack = r.executor_stack.eraseIdx i
            ∧ num_bound (detach_executor r tag) + 1 = num_bound r) := by
    intro r tag
    constructor
    · intro hnot
      have : (detach_executor r tag).executor_stack = r.executor_stack := by
        simp only [detach_executor]
        rw [List.filter_eq_self]
        intro a ha
        have : a.1 ≠ tag := fun h => hnot (List.mem_map.mpr ⟨a, ha, h⟩)
        simp [this]
      exact ⟨this, by simp only [num_bound, this]⟩
    · intro hn i b hget hb
      obtain ⟨l1, l2, hl, _, herase, _⟩ := get?_split r.executor_stack i b hget
      subst hb
      have : (detach_executor r b.1).executor_stack = r.executor_stack.eraseIdx i := by
        simp only [detach_executor]
        rw [herase]
        rw [hl] at hn ⊢
        exact filter_tag_split l1 l2 b hn
      refine ⟨this, ?_⟩
      simp only [num_bound, this, herase]
      rw [hl]; simp; omega
  have hnodup := (stack_tags_nodup gen_key ops w hrun)
  have hstack := stack_runOps gen_key ops World.init w hrun
  simp only [World.init, Registry.init, List.filter_nil, List.nil_append] at hstack
  refine ⟨?_, ?_, ?_, hstack, by simp only [num_bound, hstack]⟩
  · intro r tag
    refine ⟨?_, ?_, rfl, rfl, (hgen r tag).1, (hgen r tag).2⟩
    · exact List.filter_sublist _
    · intro b
      simp [detach_executor, List.mem_filter]
  · intro tag htag
    obtain ⟨b, hb, hbt⟩ := List.mem_map.mp htag
    obtain ⟨i, hi, hget⟩ := List.mem_iff_getElem.mp hb
    have hget2 : w.reg.executor_stack[i]? = some b := by
      rw [List.getElem?_eq_getElem hi, hget]
    exact ((hgen w.reg tag).2 hnodup i b hget2 hbt).2
  · intro tag htag
    exact ((hgen w.reg tag).1 htag).2

theorem detach_removes_matching_witness :
    runOps exampleKey World.init
        [Op.attach 7, Op.compile 1 2 consuming, Op.compile 1 2 consuming]
        = some exampleShared
      ∧ num_bound exampleShared.reg
        = (attachedNotDetached 0
            [(Op.attach 7 : Op Nat Nat Nat), Op.compile 1 2 consuming,
              Op.compile 1 2 consuming]).length :=
  ⟨rfl, (detach_removes_matching exampleKey
    [Op.attach 7, Op.compile 1 2 consuming, Op.compile 1 2 consuming]
    exampleShared rfl).2.2.2.2⟩

/-! ## Lock discipline (C10) -/

theorem scanOk_append (held : Bool) (l1 l2 : List (Event K)) :
    scanOk held (l1 ++ l2) = (scanOk held l1 && scanOk (l1.foldl lockStep held) l2) := by
  induction l1 generalizing held with
  | nil => simp [scanOk]
  | cons e l1 ih => simp [scanOk, ih, Bool.and_assoc]

theorem scanOk_allowed (held : Bool) (l pre post : List (Event K)) (ev : Event K)
    (h : scanOk held l = true) (hl : l = pre ++ ev :: post) :
    eventAllowed (pre.foldl lockStep held) ev = true := by
  subst hl
  rw [scanOk_append] at h
  simp only [scanOk, Bool.and_eq_true] at h
  exact h.2.1

/-- The events a transition appends respect the lock and leave it free. -/
theorem step_block (gen_key : F → P → K) (u u1 : World F P K E) (op : Op F P E)
    (hstep : step gen_key u op = some u1) :
    ∃ evs, u1.log = u.log ++ evs ∧ scanOk false evs = true
      ∧ evs.foldl lockStep false = false := by
  cases op with
  | compile f p ex =>
    simp only [step, Option.map_eq_some'] at hstep
    obtain ⟨⟨w3, tok⟩, hc, rfl⟩ := hstep
    cases hfind : find u.reg.cached (gen_key f p) with
    | some v =>
      rw [compile_hit gen_key u f p ex v hfind] at hc
      simp only [Option.some.injEq, Prod.mk.injEq] at hc
      obtain ⟨rfl, _⟩ := hc
      exact ⟨_, rfl, rfl, rfl⟩
    | none =>
      cases hs : u.reg.executor_stack.getLast? with
      | none =>
        rw [compile_miss_unbound gen_key u f p ex hfind hs] at hc
        simp only [Option.some.injEq, Prod.mk.injEq] at hc
        obtain ⟨rfl, _⟩ := hc
        exact ⟨_, rfl, rfl, rfl⟩
      | some top =>
        cases hex : ex top.2 with
        | consumed =>
          rw [compile_miss_consumed gen_key u f p ex top hfind hs hex] at hc
          simp only [Option.some.injEq, Prod.mk.injEq] at hc
          obtain ⟨rfl, _⟩ := hc
          exact ⟨_, rfl, rfl, rfl⟩
        | declined =>
          rw [compile_miss_declined gen_key u f p ex top hfind hs hex] at hc
          simp only [Option.some.injEq, Prod.mk.injEq] at hc
          obtain ⟨rfl, _⟩ := hc
          exact ⟨_, rfl, rfl, rfl⟩
  | compile_section f p ex =>
    simp only [step, Option.some.injEq] at hstep
    subst hstep
    cases hfind : find u.reg.cached (gen_key f p) with
    | some v =>
      rw [compile_section_hit gen_key u f p ex v hfind]
      exact ⟨_, rfl, rfl, rfl⟩
    | none =>
      cases hs : u.reg.executor_stack.getLast? with
      | none =>
        rw [compile_section_miss_unbound gen_key u f p ex hfind hs]
        exact ⟨_, rfl, rfl, rfl⟩
      | some top =>
        cases hex : ex top.2 with
        | consumed =>
          rw [compile_section_miss_consumed gen_key u f p ex top hfind hs hex]
          exact ⟨_, rfl, rfl, rfl⟩
        | declined =>
          rw [compile_section_miss_declined gen_key u f p ex top hfind hs hex]
          exact ⟨_, rfl, rfl, rfl⟩
  | release i =>
    obtain ⟨k, _, _, _, _, hl⟩ := release_token_shape u u1 i hstep
    exact ⟨_, hl, rfl, rfl⟩
  | run i =>
    obtain ⟨t, b, v, _, _, rfl⟩ := run_task_shape u u1 i hstep
    exact ⟨_, rfl, rfl, rfl⟩
  | destroy i =>
    obtain ⟨t, b, _, _, _, _, hl⟩ := destroy_task_shape u u1 i hstep
    exact ⟨_, hl, rfl, rfl⟩
  | attach e =>
    simp only [step, Option.some.injEq] at hstep
    subst hstep
    exact ⟨_, rfl, rfl, rfl⟩
  | detach tag =>
    simp only [step, Option.some.injEq] at hstep
    subst hstep
    exact ⟨_, rfl, rfl, rfl⟩

theorem log_runOps (gen_key : F → P → K) (ops : List (Op F P E)) (w w1 : World F P K E)
    (hrun : runOps gen_key w ops = some w1)
    (hw : scanOk false w.log = true ∧ lockHeld w.log = false) :
    scanOk false w1.log = true ∧ lockHeld w1.log = false := by
  induction ops generalizing w with
  | nil =>
    simp only [runOps, Option.some.injEq] at hrun
    subst hrun; exact hw
  | cons op ops ih =>
    simp only [runOps] at hrun
    cases hs : step gen_key w op with
    | none => simp [hs] at hrun
    | some w2 =>
      simp only [hs] at hrun
      refine ih w2 hrun ?_
      obtain ⟨evs, hl, h1, h2⟩ := step_block gen_key w w2 op hs
      have hheld : w.log.foldl lockStep false = false := hw.2
      constructor
      · rw [hl, scanOk_append, hw.1, hheld, h1]; rfl
      · rw [hl, lockHeld, List.foldl_append, hheld, h2]

/-- C10 (as stated, refuted): after `attach_executor(7)`, the log of a `compile(1, 2)`
that misses has the submit to the binding with tag 1 right after the events
lock, unlock, lock, task_created, at which point the lock is held. -/
theorem submit_under_lock_counterexample :
    (runOps exampleKey (World.init : World Nat Nat Nat Nat)
        [Op.attach 7, Op.compile 1 2 consuming]).map (fun w => w.log)
      = some ([Event.lock, Event.unlock, Event.lock, Event.task_created 12]
              ++ Event.execute 1 12 :: [Event.unlock])
      ∧ lockHeld [Event.lock, Event.unlock, Event.lock,
                  (Event.task_created 12 : Event Nat)] = true :=
  ⟨rfl, rfl⟩

theorem lockHeld_submit (log : List (Event K)) (l : Locked F P K E) :
    lockHeld (log ++ submitEvents l) = true := by
  cases hc : l.created <;> cases hs : l.submitted <;>
    simp [lockHeld, submitEvents, hc, hs, List.foldl_append, lockStep]

/-- C10 (amended): the guarded block of `compile` is the acquisition of the lock, on a
miss the creation of the task and, with a binding in the stack, the submit to the top
binding, and only then the release of the lock: the lock is held while `execute` runs.
In every reachable state, where every run of a task started after the guarded block
had been left (by `compile` itself at line 75, or by an executor after its submit had
returned), the lock is free between transitions and, for every event of the log, a
submit, the creation of a task and the publication of an artifact happened while the
calling thread held the lock, and a backend call happened while it did not.  A run that
an executor performs inside its submit is outside these transitions: its events would
follow the submit directly, so its backend call comes with the lock held and its own
acquisition of the lock (line 123) comes while the thread already holds it. -/
theorem lock_discipline (gen_key : F → P → K) (ops : List (Op F P E))
    (w : World F P K E) (hrun : runOps gen_key World.init ops = some w) :
    lockHeld w.log = false
      ∧ (∀ pre ev post, w.log = pre ++ ev :: post →
          (∀ tag k, ev = Event.execute tag k → lockHeld pre = true)
          ∧ (∀ k, ev = Event.task_created k → lockHeld pre = true)
          ∧ (∀ k, ev = Event.publish k → lockHeld pre = true)
          ∧ (∀ k, ev = Event.backend k → lockHeld pre = false))
      ∧ (∀ f p ex top, find w.reg.cached (gen_key f p) = none →
          w.reg.executor_stack.getLast? = some top →
          (compile_section gen_key w f p ex).1.log
            = w.log ++ [Event.lock, Event.task_created (gen_key f p),
                        Event.execute top.1 (gen_key f p), Event.unlock])
      ∧ (∀ f p ex,
          (compile_section gen_key w f p ex).1.log
              = w.log ++ submitEvents (compile_locked gen_key w.reg f p ex)
                  ++ [Event.unlock]
          ∧ lockHeld (w.log ++ submitEvents (compile_locked gen_key w.reg f p ex))
              = true)
      ∧ (∀ f p ex top, find w.reg.cached (gen_key f p) = none →
          w.reg.executor_stack.getLast? = some top →
          submitEvents (compile_locked gen_key w.reg f p ex)
              = [Event.lock, Event.task_created (gen_key f p),
                 Event.execute top.1 (gen_key f p)]
          ∧ runEvents (gen_key f p)
              = Event.backend (gen_key f p)
                  :: Event.lock :: [Event.publish (gen_key f p), Event.unlock]
          ∧ lockHeld (w.log ++ submitEvents (compile_locked gen_key w.reg f p ex))
              = true
          ∧ lockHeld (w.log ++ submitEvents (compile_locked gen_key w.reg f p ex)
                ++ [Event.backend (gen_key f p)]) = true
          ∧ scanOk false (w.log ++ submitEvents (compile_locked gen_key w.reg f p ex)
                ++ runEvents (gen_key f p)) = false) := by
  have hlog := log_runOps gen_key ops World.init w hrun ⟨rfl, rfl⟩
  have hsub : ∀ f p ex top, find w.reg.cached (gen_key f p) = none →
      w.reg.executor_stack.getLast? = some top →
      submitEvents (compile_locked gen_key w.reg f p ex)
        = [Event.lock, Event.task_created (gen_key f p),
           Event.execute top.1 (gen_key f p)] := by
    intro f p ex top hfind hs
    cases hex : ex top.2 <;> simp [compile_locked, hfind, hs, hex, submitEvents]
  refine ⟨hlog.2, ?_, ?_, ?_, ?_⟩
  · intro pre ev post hl
    have h := scanOk_allowed false w.log pre post ev hlog.1 hl
    refine ⟨?_, ?_, ?_, ?_⟩
    · intro tag k hev; subst hev; simpa [eventAllowed] using h
    · intro k hev; subst hev; simpa [eventAllowed] using h
    · intro k hev; subst hev; simpa [eventAllowed] using h
    · intro k hev; subst hev; simpa [eventAllowed, lockHeld] using h
  · intro f p ex top hfind hs
    cases hex : ex top.2 with
    | consumed => rw [compile_section_miss_consumed gen_key w f p ex top hfind hs hex]
    | declined => rw [compile_section_miss_declined gen_key w f p ex top hfind hs hex]
  · intro f p ex
    refine ⟨?_, lockHeld_submit _ _⟩
    simp [compile_section, lockedEvents]
  · intro f p ex top hfind hs
    have hheld := lockHeld_submit w.log (compile_locked gen_key w.reg f p ex)
    refine ⟨hsub f p ex top hfind hs, rfl, hheld, ?_, ?_⟩
    · rw [lockHeld, List.foldl_append]
      rw [lockHeld] at hheld
      rw [hheld]; rfl
    · rw [scanOk_append]
      have h2 : (w.log ++ submitEvents (compile_locked gen_key w.reg f p ex)).foldl
          lockStep false = true := hheld
      rw [h2]
      simp [runEvents, scanOk, eventAllowed]

theorem lock_discipline_witness :
    runOps exampleKey World.init
        [Op.attach 7, Op.compile 1 2 consuming, Op.compile 1 2 consuming]
        = some exampleShared
      ∧ lockHeld exampleShared.log = false
      ∧ lockHeld ([Event.lock, Event.unlock, Event.lock,
                   (Event.task_created 12 : Event Nat)]) = true :=
  ⟨rfl,
    (lock_discipline exampleKey
      [Op.attach 7, Op.compile 1 2 consuming, Op.compile 1 2 consuming]
      exampleShared rfl).1,
    ((lock_discipline exampleKey
      [Op.attach 7, Op.compile 1 2 consuming, Op.compile 1 2 consuming]
      exampleShared rfl).2.1
      [Event.lock, Event.unlock, Event.lock, Event.task_created 12]
      (Event.execute 1 12) [Event.unlock, Event.lock, Event.unlock] rfl).1 1 12 rfl⟩

end CompileCache
